import Mathlib
/-- Python strings are modelled as lists of characters. -/
abbrev Str := List Char

/-- Coerce a Lean string literal into the `List Char` model. -/
def strL (s : String) : Str := s.data

/-! ### Generic character / list helpers mirroring Python string methods -/

/-- ASCII lower-casing of one character, plus the Cyrillic А-Я and Ё rows
(the only non-ASCII letters occurring in this repository).  Python
`str.lower` restricted to the alphabets the sources use. -/
def pyLowerChar (c : Char) : Char :=
  if 'A' ≤ c ∧ c ≤ 'Z' then Char.ofNat (c.toNat + 32)
  else if 'А' ≤ c ∧ c ≤ 'Я' then Char.ofNat (c.toNat + 32)
  else if c = 'Ё' then 'ё'
  else c

/-- Python `str.lower` on the modelled alphabet. -/
def pyLower (l : Str) : Str := l.map pyLowerChar

/-- Characters stripped by Python `str.strip()` (ASCII whitespace and NBSP). -/
def isPyWs (c : Char) : Bool :=
  c = ' ' ∨ c = '\t' ∨ c = '\n' ∨ c = '\r' ∨ c = '\x0b' ∨ c = '\x0c' ∨ c = '\xa0'

/-- Strip characters satisfying `p` from both ends (Python `str.strip`). -/
def stripBoth (p : Char → Bool) (l : Str) : Str :=
  ((l.dropWhile p).reverse.dropWhile p).reverse

/-- Strip characters satisfying `p` from the left only (Python `str.lstrip`). -/
def stripLeft (p : Char → Bool) (l : Str) : Str := l.dropWhile p

/-- Longest prefix of `l` containing no character from `ds`
(Python `find` of the first delimiter, keeping the part before it). -/
def takeUntilMem (ds : List Char) : Str → Str
  | [] => []
  | c :: r => if c ∈ ds then [] else c :: takeUntilMem ds r

/-- Remainder of `l` from the first character belonging to `ds` on
(including the delimiter); `[]` if no delimiter occurs. -/
def dropFromMem (ds : List Char) : Str → Str
  | [] => []
  | c :: r => if c ∈ ds then c :: r else dropFromMem ds r

theorem takeUntilMem_append_dropFromMem (ds : List Char) (l : Str) :
    takeUntilMem ds l ++ dropFromMem ds l = l := by
  induction l with
  | nil => rfl
  | cons c r ih =>
      by_cases h : c ∈ ds <;> simp [takeUntilMem, dropFromMem, h, ih]

theorem takeUntilMem_of_all_not {ds : List Char} {l : Str}
    (h : ∀ c ∈ l, c ∉ ds) : takeUntilMem ds l = l := by
  induction l with
  | nil => rfl
  | cons c r ih =>
      simp only [takeUntilMem]
      rw [if_neg (h c (by simp))]
      simp [ih fun x hx => h x (by simp [hx])]

theorem dropFromMem_of_all_not {ds : List Char} {l : Str}
    (h : ∀ c ∈ l, c ∉ ds) : dropFromMem ds l = [] := by
  induction l with
  | nil => rfl
  | cons c r ih =>
      simp only [dropFromMem]
      rw [if_neg (h c (by simp))]
      exact ih fun x hx => h x (by simp [hx])

theorem takeUntilMem_append_of_all_not {ds : List Char} {a : Str} (b : Str)
    (h : ∀ c ∈ a, c ∉ ds) :
    takeUntilMem ds (a ++ b) = a ++ takeUntilMem ds b := by
  induction a with
  | nil => rfl
  | cons c r ih =>
      simp only [List.cons_append, takeUntilMem]
      rw [if_neg (h c (by simp))]
      simp [ih fun x hx => h x (by simp [hx])]

theorem dropFromMem_append_of_all_not {ds : List Char} {a : Str} (b : Str)
    (h : ∀ c ∈ a, c ∉ ds) :
    dropFromMem ds (a ++ b) = dropFromMem ds b := by
  induction a with
  | nil => rfl
  | cons c r ih =>
      simp only [List.cons_append, dropFromMem]
      rw [if_neg (h c (by simp))]
      exact ih fun x hx => h x (by simp [hx])

theorem takeUntilMem_cons_mem {ds : List Char} {c : Char} (r : Str)
    (h : c ∈ ds) : takeUntilMem ds (c :: r) = [] := by
  simp [takeUntilMem, h]

theorem dropFromMem_cons_mem {ds : List Char} {c : Char} (r : Str)
    (h : c ∈ ds) : dropFromMem ds (c :: r) = c :: r := by
  simp [dropFromMem, h]

/-- Python `str.rstrip('/')`. -/
def rstripSlash (l : Str) : Str := (l.reverse.dropWhile (· = '/')).reverse

theorem dropWhile_self_dropWhile (p : Char → Bool) (l : Str) :
    (l.dropWhile p).dropWhile p = l.dropWhile p := by
  induction l with
  | nil => rfl
  | cons c r ih =>
      by_cases h : p c
      · simp [List.dropWhile_cons, h, ih]
      · simp [List.dropWhile_cons, h]

theorem rstripSlash_idem (l : Str) : rstripSlash (rstripSlash l) = rstripSlash l := by
  simp [rstripSlash, dropWhile_self_dropWhile]

theorem mem_rstripSlash {l : Str} {c : Char} (h : c ∈ rstripSlash l) : c ∈ l := by
  simp only [rstripSlash, List.mem_reverse] at h
  have := List.dropWhile_sublist (p := fun c => decide (c = '/')) (l := l.reverse)
  have hmem := this.mem h
  simpa using hmem

/-! ### Python `str.split(sep)` (non-empty separator) and `str.replace`

Fuel-based structural recursion so that the kernel can evaluate them; the
fuel `s.length` is always sufficient because each step consumes at least one
character. -/

/-- Worker for `pySplit`: scans left to right, cutting at each non-overlapping
occurrence of `sep`, exactly like CPython `str.split` with a non-empty
separator. -/
def pySplitGo (sep : Str) : Nat → Str → Str → List Str
  | 0, acc, s => [acc.reverse ++ s]
  | _ + 1, acc, [] => [acc.reverse]
  | f + 1, acc, c :: r =>
      if sep.isPrefixOf (c :: r) then
        acc.reverse :: pySplitGo sep f [] ((c :: r).drop sep.length)
      else
        pySplitGo sep f (c :: acc) r

/-- Python `s.split(sep)`.  Python raises on an empty separator; the callers
in this repository always pass non-empty literals, so the guard branch is
unreachable there. -/
def pySplit (sep s : Str) : List Str :=
  if sep = [] then [s] else pySplitGo sep s.length [] s

/-- Worker for `pyReplace`. -/
def pyReplaceGo (pat rep : Str) : Nat → Str → Str
  | 0, s => s
  | _ + 1, [] => []
  | f + 1, c :: r =>
      if pat.isPrefixOf (c :: r) then
        rep ++ pyReplaceGo pat rep f ((c :: r).drop pat.length)
      else
        c :: pyReplaceGo pat rep f r

/-- Python `s.replace(pat, rep)` for a non-empty pattern: replaces all
non-overlapping occurrences left to right. -/
def pyReplace (pat rep s : Str) : Str :=
  if pat = [] then s else pyReplaceGo pat rep s.length s

theorem pySplitGo_no_occurrence {sep : Str} (f : Nat) (acc s : Str)
    (hf : s.length ≤ f) (h : ∀ t, t <:+ s → ¬ sep.isPrefixOf t) :
    pySplitGo sep f acc s = [acc.reverse ++ s] := by
  induction s generalizing f acc with
  | nil =>
      cases f with
      | zero => rfl
      | succ f => simp [pySplitGo]
  | cons c r ih =>
      cases f with
      | zero => simp at hf
      | succ f =>
          simp only [pySplitGo]
          rw [if_neg (by simpa using h (c :: r) (List.suffix_refl _))]
          rw [ih f (c :: acc) (by simpa using hf) (fun t ht => h t (ht.trans (List.suffix_cons c r)))]
          simp

/-- If some character of `sep` does not occur in `s`, no suffix of `s` can
start with `sep`. -/
theorem no_occurrence_of_missing_char {sep s : Str} {d : Char}
    (hd : d ∈ sep) (hds : d ∉ s) : ∀ t, t <:+ s → ¬ sep.isPrefixOf t := by
  intro t ht hp
  rw [List.isPrefixOf_iff_prefix] at hp
  exact hds (ht.sublist.mem (hp.sublist.mem hd))

theorem pySplitGo_fuel {sep : Str} (hsep : sep ≠ []) (f : Nat) :
    ∀ (g : Nat) (acc s : Str), s.length ≤ f → s.length ≤ g →
      pySplitGo sep f acc s = pySplitGo sep g acc s := by
  induction f with
  | zero =>
      intro g acc s hf _
      have : s = [] := List.length_eq_zero.mp (Nat.le_zero.mp hf)
      subst this
      cases g <;> simp [pySplitGo]
  | succ f ih =>
      intro g acc s hf hg
      cases s with
      | nil => cases g <;> simp [pySplitGo]
      | cons c r =>
          cases g with
          | zero => simp at hg
          | succ g =>
              simp only [pySplitGo]
              by_cases hpre : sep.isPrefixOf (c :: r)
              · rw [if_pos hpre, if_pos hpre]
                have hlen : ((c :: r).drop sep.length).length ≤ r.length := by
                  simp only [List.length_drop]
                  cases sep with
                  | nil => exact absurd rfl hsep
                  | cons a sep' =>
                      simp only [List.length_cons]
                      omega
                rw [ih g [] _ (le_trans hlen (by simpa using hf))
                  (le_trans hlen (by simpa using hg))]
              · rw [if_neg hpre, if_neg hpre]
                exact ih g (c :: acc) r (by simpa using hf) (by simpa using hg)

theorem pySplitGo_match_head {sep : Str} (f : Nat) (acc rest : Str)
    (hsep : sep ≠ []) :
    pySplitGo sep (f + 1) acc (sep ++ rest) =
      acc.reverse :: pySplitGo sep f [] rest := by
  cases sep with
  | nil => exact absurd rfl hsep
  | cons a sep' =>
      simp only [List.cons_append, List.append_eq, pySplitGo]
      rw [if_pos]
      · have hdrop : (a :: (sep' ++ rest)).drop (a :: sep').length = rest :=
          List.drop_left (a :: sep') rest
        rw [hdrop]
      · rw [List.isPrefixOf_iff_prefix]
        exact ⟨rest, by simp⟩

theorem pySplitGo_scan {sep : Str} (pre : Str) (f : Nat) (acc tail : Str)
    (hf : (pre ++ tail).length ≤ f)
    (h : ∀ t, t <:+ pre → t ≠ [] → ¬ sep.isPrefixOf (t ++ tail)) :
    pySplitGo sep f acc (pre ++ tail) =
      pySplitGo sep (f - pre.length) (pre.reverse ++ acc) tail := by
  induction pre generalizing f acc with
  | nil => simp
  | cons c pre' ih =>
      cases f with
      | zero => simp at hf
      | succ f =>
          simp only [List.cons_append, List.append_eq, pySplitGo]
          rw [if_neg (by
            have := h (c :: pre') (List.suffix_refl _) (by simp)
            simpa using this)]
          rw [ih f (c :: acc) (by simpa using hf)
            (fun t ht hne => h t (ht.trans (List.suffix_cons c pre')) hne)]
          simp [Nat.succ_sub_succ]

/-- Splitting `pre ++ sep ++ post` on `sep` yields exactly `[pre, post]` when
no occurrence of `sep` starts inside `pre` and none occurs in `post`. -/
theorem pySplit_eq_pair {sep pre post : Str} (hsep : sep ≠ [])
    (hpre : ∀ t, t <:+ pre → t ≠ [] → ¬ sep.isPrefixOf (t ++ (sep ++ post)))
    (hpost : ∀ t, t <:+ post → ¬ sep.isPrefixOf t) :
    pySplit sep (pre ++ sep ++ post) = [pre, post] := by
  obtain ⟨a, sep', rfl⟩ : ∃ a s', sep = a :: s' := by
    cases sep with
    | nil => exact absurd rfl hsep
    | cons a s' => exact ⟨a, s', rfl⟩
  set sep := a :: sep' with hsepdef
  unfold pySplit
  rw [if_neg hsep, List.append_assoc]
  rw [pySplitGo_scan pre _ [] (sep ++ post) (by simp [hsepdef]) hpre]
  rw [pySplitGo_fuel hsep _ (sep'.length + post.length + 1) (pre.reverse ++ []) (sep ++ post)
    (by simp [hsepdef]) (by simp [hsepdef])]
  rw [show sep'.length + post.length + 1 = (sep'.length + post.length) + 1 from rfl]
  rw [pySplitGo_match_head _ _ _ hsep]
  rw [pySplitGo_no_occurrence _ [] post (by omega) hpost]
  simp

/-! ### The coordinate note (src/main.py `_ensure_coords_and_notes`) and its
parse in the zone classifier (wb_check_coordinates.py `check_coordinates`) -/

/-- Note string written by the record store:
`f"lat = {lat}, lng = {lng}"` (src/main.py lines 516 and 530). -/
def coordNote (lat lng : Str) : Str :=
  strL "lat = " ++ lat ++ strL ", lng = " ++ lng

/-- Python list indexing `[-1]` on the (always non-empty) result of `split`;
the `[]` case is unreachable there. -/
def lastPiece : List Str → Str
  | [] => []
  | [x] => x
  | _ :: x :: xs => lastPiece (x :: xs)

/-- Python list indexing `[0]` on the (always non-empty) result of `split`. -/
def headPiece : List Str → Str
  | [] => []
  | x :: _ => x

/-- Classifier side, wb_check_coordinates.py line 48:
`coordinates.split('lat = ')[-1].split(',')[0]`. -/
def noteLat (coordinates : Str) : Str :=
  headPiece (pySplit (strL ",") (lastPiece (pySplit (strL "lat = ") coordinates)))

/-- Classifier side, wb_check_coordinates.py line 49:
`coordinates.split('lng = ')[-1]`. -/
def noteLng (coordinates : Str) : Str :=
  lastPiece (pySplit (strL "lng = ") coordinates)

/-- Characters of a standard decimal rendering of a float (digits, sign,
decimal point, exponent marker). -/
def isNumChar (c : Char) : Bool :=
  c.isDigit ∨ c = '.' ∨ c = '-' ∨ c = '+' ∨ c = 'e'

theorem isNumChar_ne {c x : Char} (h : isNumChar c = true)
    (hx : isNumChar x = false) : c ≠ x := by
  intro he
  subst he
  rw [h] at hx
  exact Bool.noConfusion hx

theorem mem_of_suffix_mem {t s : Str} {c : Char} (ht : t <:+ s) (hc : c ∈ t) : c ∈ s :=
  ht.sublist.mem hc

theorem note_roundtrip_lat (L U : Str)
    (hL : ∀ c ∈ L, isNumChar c = true) (hU : ∀ c ∈ U, isNumChar c = true) :
    noteLat (coordNote L U) = L := by
  have haL : 'a' ∉ L := fun hm => absurd (hL 'a' hm) (by decide)
  have haU : 'a' ∉ U := fun hm => absurd (hU 'a' hm) (by decide)
  have hA : pySplit (strL "lat = ") (coordNote L U) = [[], L ++ strL ", lng = " ++ U] := by
    have h2 : ∀ t, t <:+ (L ++ strL ", lng = " ++ U) → ¬ (strL "lat = ").isPrefixOf t := by
      apply no_occurrence_of_missing_char (d := 'a') (by decide)
      intro hmem
      rcases List.mem_append.mp hmem with hm | hm
      · rcases List.mem_append.mp hm with hm2 | hm2
        · exact haL hm2
        · exact absurd hm2 (by decide)
      · exact haU hm
    have := @pySplit_eq_pair (strL "lat = ") [] (L ++ strL ", lng = " ++ U) (by decide)
      (fun t ht hne => absurd (List.suffix_nil.mp ht) hne) h2
    simpa [coordNote] using this
  have hBshape : L ++ strL ", lng = " ++ U = L ++ strL "," ++ (strL " lng = " ++ U) := by
    simp only [List.append_assoc]
    congr 1
  have hB : pySplit (strL ",") (L ++ strL ", lng = " ++ U) = [L, strL " lng = " ++ U] := by
    rw [hBshape]
    apply pySplit_eq_pair (by decide)
    · intro t ht hne hp
      rw [List.isPrefixOf_iff_prefix] at hp
      obtain ⟨rr, hrr⟩ := hp
      cases t with
      | nil => exact hne rfl
      | cons c t' =>
          rw [show strL "," = [','] from rfl, List.cons_append] at hrr
          simp only [List.cons_append, List.cons.injEq] at hrr
          have hcL : c ∈ L := mem_of_suffix_mem ht (by simp)
          rw [← hrr.1] at hcL
          exact absurd (hL ',' hcL) (by decide)
    · apply no_occurrence_of_missing_char (d := ',') (by decide)
      intro hmem
      rcases List.mem_append.mp hmem with hm | hm
      · exact absurd hm (by decide)
      · exact absurd (hU ',' hm) (by decide)
  rw [noteLat, hA]
  rw [show lastPiece [[], L ++ strL ", lng = " ++ U] = L ++ strL ", lng = " ++ U from rfl]
  rw [hB]
  rfl

theorem note_roundtrip_lng (L U : Str)
    (hL : ∀ c ∈ L, isNumChar c = true) (hU : ∀ c ∈ U, isNumChar c = true) :
    noteLng (coordNote L U) = U := by
  have hnL : 'n' ∉ L := fun hm => absurd (hL 'n' hm) (by decide)
  have hnU : 'n' ∉ U := fun hm => absurd (hU 'n' hm) (by decide)
  have hshape : coordNote L U =
      (strL "lat = " ++ L ++ strL ", ") ++ strL "lng = " ++ U := by
    simp only [coordNote, List.append_assoc]
    congr 2
  have hC : pySplit (strL "lng = ") (coordNote L U) =
      [strL "lat = " ++ L ++ strL ", ", U] := by
    rw [hshape]
    apply pySplit_eq_pair (by decide)
    · intro t ht hne hp
      rw [List.isPrefixOf_iff_prefix] at hp
      obtain ⟨rr, hrr⟩ := hp
      cases t with
      | nil => exact hne rfl
      | cons c t' =>
          cases t' with
          | nil =>
              rw [show strL "lng = " = 'l' :: 'n' :: strL "g = " from rfl] at hrr
              simp only [List.cons_append, List.nil_append, List.cons.injEq] at hrr
              exact absurd hrr.2.1.symm (by decide)
          | cons c2 t'' =>
              rw [show strL "lng = " = 'l' :: 'n' :: strL "g = " from rfl] at hrr
              simp only [List.cons_append, List.cons.injEq] at hrr
              have hc2 : c2 ∈ strL "lat = " ++ L ++ strL ", " :=
                mem_of_suffix_mem ht (by simp)
              rw [← hrr.2.1] at hc2
              rcases List.mem_append.mp hc2 with hm | hm
              · rcases List.mem_append.mp hm with hm2 | hm2
                · exact absurd hm2 (by decide)
                · exact hnL hm2
              · exact absurd hm (by decide)
    · exact no_occurrence_of_missing_char (d := 'n') (by decide) hnU
  rw [noteLng, hC]
  rfl

/-- C9: round-trip of the coordinate note.  For every latitude string L and
longitude string U that are standard decimal number renderings (digits, sign,
decimal point, exponent marker only — hence containing no comma and no
`lat = ` / `lng = ` markers), the classifier parse of the record store note
`lat = L, lng = U` recovers exactly L and U. -/
theorem note_roundtrip (L U : Str)
    (hL : ∀ c ∈ L, isNumChar c = true) (hU : ∀ c ∈ U, isNumChar c = true) :
    noteLat (coordNote L U) = L ∧ noteLng (coordNote L U) = U :=
  ⟨note_roundtrip_lat L U hL hU, note_roundtrip_lng L U hL hU⟩

/-- Witness for C9 at the concrete rendering L = 55.75, U = 37.61. -/
theorem note_roundtrip_witness :
    noteLat (coordNote (strL "55.75") (strL "37.61")) = strL "55.75" ∧
    noteLng (coordNote (strL "55.75") (strL "37.61")) = strL "37.61" :=
  note_roundtrip (strL "55.75") (strL "37.61") (by decide) (by decide)

/-! ### Parsed JSON values and the zone-lookup classification
(wb_check_coordinates.py `check_coordinates`).

The HTTP transport (`fetch_page`, settings URL construction) is an external
collaborator; its result — parsed JSON or `None` after exhausting retries —
is the `Option PyVal` input below, supplied by an oracle keyed by the
latitude/longitude strings (the only varying parts of the request URL). -/

/-- Python runtime values produced by `response.json()`. -/
inductive PyVal where
  | pnull
  | pbool (b : Bool)
  | pnum (q : ℚ)
  | pstr (s : Str)
  | parr (xs : List PyVal)
  | pobj (fields : List (Str × PyVal))

/-- First-match lookup in a dict modelled as an association list. -/
def pyLookup (fields : List (Str × PyVal)) (k : Str) (d : PyVal) : PyVal :=
  match fields with
  | [] => d
  | (k2, v) :: rest => if k2 = k then v else pyLookup rest k d

/-- Python `v.get(k, d)`: raises (`AttributeError`) when `v` is not a dict. -/
def pyGet (v : PyVal) (k : Str) (d : PyVal) : Except Unit PyVal :=
  match v with
  | .pobj fields => .ok (pyLookup fields k d)
  | _ => .error ()

/-- Python truthiness of the modelled JSON values. -/
def pyTruthy : PyVal → Bool
  | .pnull => false
  | .pbool b => b
  | .pnum q => decide (q ≠ 0)
  | .pstr s => decide (s ≠ [])
  | .parr xs => !xs.isEmpty
  | .pobj fs => !fs.isEmpty

/-- Python `v == s` between an arbitrary value and a string literal. -/
def pyEqStr (v : PyVal) (s : Str) : Bool :=
  match v with
  | .pstr t => decide (t = s)
  | _ => false

def redZoneDesc : Str := strL "Точка попадает в красную зону"

def pvzDesc : Str := strL "Точка попадает в здание с действующим или открывающимся ПВЗ"

def occupiedStatus : Str := strL "с действующим или открывающимся ПВЗ"

/-- Body of the `try` block of `check_coordinates`
(wb_check_coordinates.py lines 63-87), including the fall-through to the
final `return 'N/A'`; any raised `AttributeError` from a `.get` on a
non-dict is the `.error` case. -/
def check_coordinates_try (r : PyVal) : Except Unit Str := do
  let description ← pyGet r (strL "description") (.pstr [])
  if pyEqStr description redZoneDesc then
    return strL "красная"
  if pyEqStr description pvzDesc then
    return occupiedStatus
  let point_info ← pyGet r (strL "point_info") (.pobj [])
  let zone_info ← pyGet point_info (strL "zone_info") (.pobj [])
  let general_info ← pyGet point_info (strL "general_info") (.pobj [])
  let priority_zone_info ← pyGet general_info (strL "priority_zone_info") (.pobj [])
  if pyTruthy priority_zone_info then
    let text_code ← pyGet priority_zone_info (strL "text_code") .pnull
    if pyEqStr text_code (strL "new_build_zones") then
      return strL "розовая"
    else if pyEqStr text_code (strL "load_predict") then
      return strL "фиолетовая"
  let zone_text_code ← pyGet zone_info (strL "text_code") .pnull
  if pyEqStr zone_text_code (strL "green_zone") then
    return strL "зеленая"
  return strL "N/A"

/-- `check_coordinates` as a function of the fetched response:
`if not response: return "ERROR"`, then the `try` body with the exception
handler falling through to `'N/A'`. -/
def check_coordinates_response (resp : Option PyVal) : Str :=
  match resp with
  | none => strL "ERROR"
  | some r =>
      if pyTruthy r then
        match check_coordinates_try r with
        | .ok s => s
        | .error _ => strL "N/A"
      else strL "ERROR"

/-- Status normalization in `main` (wb_check_coordinates.py lines 119-123):
`if not color or color in ['ERROR', 'NO_POINT_INFO']: color_to_write = 'N/A'`. -/
def normalizeColor (color : Str) : Str :=
  if color = [] ∨ color = strL "ERROR" ∨ color = strL "NO_POINT_INFO" then strL "N/A"
  else color

/-- The classification text that `main` hands to `set_status_to_table` for a
processed row, as a function of the zone-lookup response. -/
def classify_written (resp : Option PyVal) : Str :=
  normalizeColor (check_coordinates_response resp)

/-- `check_coordinates` over a coordinate note string: parse lat/lng out of
the note, then classify the service response obtained for that pair. -/
def check_coordinates (fetch : Str → Str → Option PyVal) (coordinates : Str) : Str :=
  check_coordinates_response (fetch (noteLat coordinates) (noteLng coordinates))

/-- Composite extraction: `response.get("description", '')`. -/
def descOf (r : PyVal) : Except Unit PyVal := pyGet r (strL "description") (.pstr [])

/-- Composite extraction: `response.get("point_info", {}).get("general_info",
{}).get("priority_zone_info", {})`. -/
def priorityOf (r : PyVal) : Except Unit PyVal := do
  let point_info ← pyGet r (strL "point_info") (.pobj [])
  let general_info ← pyGet point_info (strL "general_info") (.pobj [])
  pyGet general_info (strL "priority_zone_info") (.pobj [])

/-- Composite extraction: `response.get("point_info", {}).get("zone_info",
{}).get("text_code")`. -/
def zoneTextOf (r : PyVal) : Except Unit PyVal := do
  let point_info ← pyGet r (strL "point_info") (.pobj [])
  let zone_info ← pyGet point_info (strL "zone_info") (.pobj [])
  pyGet zone_info (strL "text_code") .pnull

theorem priorityOf_shape {r pzi : PyVal} (h : priorityOf r = .ok pzi) :
    ∃ fields pf gf,
      r = .pobj fields ∧
      pyLookup fields (strL "point_info") (.pobj []) = .pobj pf ∧
      pyLookup pf (strL "general_info") (.pobj []) = .pobj gf ∧
      pyLookup gf (strL "priority_zone_info") (.pobj []) = pzi := by
  cases r with
  | pobj fields =>
      simp only [priorityOf, pyGet, bind, Except.bind] at h
      cases hpi : pyLookup fields (strL "point_info") (.pobj []) with
      | pobj pf =>
          rw [hpi] at h
          simp only at h
          cases hgi : pyLookup pf (strL "general_info") (.pobj []) with
          | pobj gf =>
              rw [hgi] at h
              simp only [Except.ok.injEq] at h
              exact ⟨fields, pf, gf, rfl, hpi, hgi, h⟩
          | pnull => rw [hgi] at h; simp at h
          | pbool b => rw [hgi] at h; simp at h
          | pnum q => rw [hgi] at h; simp at h
          | pstr s => rw [hgi] at h; simp at h
          | parr xs => rw [hgi] at h; simp at h
      | pnull => rw [hpi] at h; simp at h
      | pbool b => rw [hpi] at h; simp at h
      | pnum q => rw [hpi] at h; simp at h
      | pstr s => rw [hpi] at h; simp at h
      | parr xs => rw [hpi] at h; simp at h
  | pnull => simp [priorityOf, pyGet, bind, Except.bind] at h
  | pbool b => simp [priorityOf, pyGet, bind, Except.bind] at h
  | pnum q => simp [priorityOf, pyGet, bind, Except.bind] at h
  | pstr s => simp [priorityOf, pyGet, bind, Except.bind] at h
  | parr xs => simp [priorityOf, pyGet, bind, Except.bind] at h

/-! ### Worksheet model for the classifier `main` loop
(wb_check_coordinates.py lines 93-124, settings.py).

A worksheet row is its list of cell values (1-based column access) plus the
per-cell fills.  `wb.save` persists the workbook after each row; persistence
is not at issue in any claim, so it is the identity here.  The randomized
pauses are timing-only and have no modelled effect. -/

def COLUMN_COORDINATES : Nat := 23

def COLUMN_COLOR : Nat := 26

def PURPLE_FILL : Str := strL "9966CC"

def PINK_FILL : Str := strL "FFB6C1"

structure WRow where
  cells : List (Option Str)
  fills : List (Option Str)
deriving DecidableEq

/-- `ws.cell(row, col).value` (1-based column, absent cells read as None). -/
def cellAt (row : WRow) (col : Nat) : Option Str := row.cells.getD (col - 1) none

/-- openpyxl cell write: extends the row as needed, then sets the cell. -/
def setCellAt (cells : List (Option Str)) (col : Nat) (v : Option Str) :
    List (Option Str) :=
  (cells ++ List.replicate (col - cells.length) none).set (col - 1) v

/-- `set_status_to_table` (wb_check_coordinates.py lines 21-43): fill every
cell of the row for the two terminal colors, then always write the status text
into `COLUMN_COLOR`. -/
def set_status_to_table (maxColumn : Nat) (row : WRow) (color : Str) : WRow :=
  let selected_fill : Option Str :=
    if color = strL "фиолетовая" then some PURPLE_FILL
    else if color = strL "розовая" then some PINK_FILL
    else none
  { cells := setCellAt row.cells COLUMN_COLOR (some color)
    fills :=
      match selected_fill with
      | some f => List.replicate maxColumn (some f)
      | none => row.fills }

/-- Python truthiness of a cell value. -/
def cellTruthy : Option Str → Bool
  | none => false
  | some s => !s.isEmpty

/-- One iteration of the `main` row loop (wb_check_coordinates.py lines
103-124): skip rows with a falsy coordinate cell; skip rows whose COLUMN 2
value is one of the two terminal colors; otherwise call the zone lookup and
write the normalized result through `set_status_to_table`. -/
def wb_process_row (fetch : Str → Str → Option PyVal) (maxColumn : Nat)
    (row : WRow) : WRow :=
  match cellAt row COLUMN_COORDINATES with
  | none => row
  | some coordinates =>
      if coordinates = [] then row
      else
        let prev_color := cellAt row 2
        if cellTruthy prev_color ∧
            (prev_color = some (strL "фиолетовая") ∨
              prev_color = some (strL "розовая")) then
          row
        else
          set_status_to_table maxColumn row
            (normalizeColor (check_coordinates fetch coordinates))

/-- The classifier pass over the data rows: each row is read, classified and
written back independently of all other rows. -/
def wb_process_table (fetch : Str → Str → Option PyVal) (maxColumn : Nat)
    (rows : List WRow) : List WRow :=
  rows.map (wb_process_row fetch maxColumn)

theorem zoneTextOf_shape {r tz : PyVal} (h : zoneTextOf r = .ok tz) :
    ∃ fields pf zf,
      r = .pobj fields ∧
      pyLookup fields (strL "point_info") (.pobj []) = .pobj pf ∧
      pyLookup pf (strL "zone_info") (.pobj []) = .pobj zf ∧
      pyLookup zf (strL "text_code") .pnull = tz := by
  cases r with
  | pobj fields =>
      simp only [zoneTextOf, pyGet, bind, Except.bind] at h
      cases hpi : pyLookup fields (strL "point_info") (.pobj []) with
      | pobj pf =>
          rw [hpi] at h
          simp only at h
          cases hzi : pyLookup pf (strL "zone_info") (.pobj []) with
          | pobj zf =>
              rw [hzi] at h
              simp only [Except.ok.injEq] at h
              exact ⟨fields, pf, zf, rfl, hpi, hzi, h⟩
          | pnull => rw [hzi] at h; simp at h
          | pbool b => rw [hzi] at h; simp at h
          | pnum q => rw [hzi] at h; simp at h
          | pstr s => rw [hzi] at h; simp at h
          | parr xs => rw [hzi] at h; simp at h
      | pnull => rw [hpi] at h; simp at h
      | pbool b => rw [hpi] at h; simp at h
      | pnum q => rw [hpi] at h; simp at h
      | pstr s => rw [hpi] at h; simp at h
      | parr xs => rw [hpi] at h; simp at h
  | pnull => simp [zoneTextOf, pyGet, bind, Except.bind] at h
  | pbool b => simp [zoneTextOf, pyGet, bind, Except.bind] at h
  | pnum q => simp [zoneTextOf, pyGet, bind, Except.bind] at h
  | pstr s => simp [zoneTextOf, pyGet, bind, Except.bind] at h
  | parr xs => simp [zoneTextOf, pyGet, bind, Except.bind] at h

/-- C7: the classification written for a processed row is a total function of
the zone-lookup response: the red-zone description maps to red, the occupied
pickup-point description to that status, a truthy structured priority zone is
inspected before the general zone (new_build_zones gives pink, load_predict
gives purple, an unrecognized or absent priority code falls through to
green_zone giving green), and a failed request, an unparseable response, or
an unrecognized signal all yield the not-applicable text while the row loop
continues over every remaining row. -/
theorem wb_written_classification :
    (classify_written none = strL "N/A") ∧
    (∀ r, descOf r = .error () → classify_written (some r) = strL "N/A") ∧
    (∀ r, descOf r = .ok (.pstr redZoneDesc) →
      classify_written (some r) = strL "красная") ∧
    (∀ r, descOf r = .ok (.pstr pvzDesc) →
      classify_written (some r) = occupiedStatus) ∧
    (∀ r d pzi, descOf r = .ok d →
      pyEqStr d redZoneDesc = false → pyEqStr d pvzDesc = false →
      priorityOf r = .ok pzi → pyTruthy pzi = true →
      pyGet pzi (strL "text_code") .pnull = .ok (.pstr (strL "new_build_zones")) →
      classify_written (some r) = strL "розовая") ∧
    (∀ r d pzi, descOf r = .ok d →
      pyEqStr d redZoneDesc = false → pyEqStr d pvzDesc = false →
      priorityOf r = .ok pzi → pyTruthy pzi = true →
      pyGet pzi (strL "text_code") .pnull = .ok (.pstr (strL "load_predict")) →
      classify_written (some r) = strL "фиолетовая") ∧
    (∀ r d pzi tc, descOf r = .ok d →
      pyEqStr d redZoneDesc = false → pyEqStr d pvzDesc = false →
      priorityOf r = .ok pzi → pyTruthy pzi = true →
      pyGet pzi (strL "text_code") .pnull = .ok tc →
      pyEqStr tc (strL "new_build_zones") = false →
      pyEqStr tc (strL "load_predict") = false →
      zoneTextOf r = .ok (.pstr (strL "green_zone")) →
      classify_written (some r) = strL "зеленая") ∧
    (∀ r d pzi, descOf r = .ok d →
      pyEqStr d redZoneDesc = false → pyEqStr d pvzDesc = false →
      priorityOf r = .ok pzi → pyTruthy pzi = false →
      zoneTextOf r = .ok (.pstr (strL "green_zone")) →
      classify_written (some r) = strL "зеленая") ∧
    (∀ r d pzi tz, descOf r = .ok d →
      pyEqStr d redZoneDesc = false → pyEqStr d pvzDesc = false →
      priorityOf r = .ok pzi → pyTruthy pzi = false →
      zoneTextOf r = .ok tz → pyEqStr tz (strL "green_zone") = false →
      classify_written (some r) = strL "N/A") ∧
    (∀ fetch maxColumn rows,
      (wb_process_table fetch maxColumn rows).length = rows.length) := by
  refine ⟨by decide, ?_, ?_, ?_, ?_, ?_, ?_, ?_, ?_, ?_⟩
  · -- unparseable response: the first `.get` raises, handler returns N/A
    intro r hd
    cases r with
    | pobj fields => simp [descOf, pyGet] at hd
    | pnull => decide
    | pbool b => cases b <;> decide
    | pnum q =>
        simp only [classify_written, check_coordinates_response]
        by_cases hq : q = 0
        · rw [if_neg (by simp [pyTruthy, hq])]
          decide
        · rw [if_pos (by simp [pyTruthy, hq])]
          simp only [check_coordinates_try, pyGet, bind, Except.bind]
          decide
    | pstr s =>
        simp only [classify_written, check_coordinates_response]
        by_cases hs : s = []
        · rw [if_neg (by simp [pyTruthy, hs])]
          decide
        · rw [if_pos (by simp [pyTruthy, hs])]
          simp only [check_coordinates_try, pyGet, bind, Except.bind]
          decide
    | parr xs =>
        simp only [classify_written, check_coordinates_response]
        by_cases hs : xs = []
        · rw [if_neg (by simp [pyTruthy, hs])]
          decide
        · rw [if_pos (by simp [pyTruthy, hs])]
          simp only [check_coordinates_try, pyGet, bind, Except.bind]
          decide
  · -- red-zone description
    intro r hd
    cases r with
    | pobj fields =>
        simp only [descOf, pyGet, Except.ok.injEq] at hd
        cases fields with
        | nil =>
            simp only [pyLookup] at hd
            injection hd with hd2
            exact absurd hd2 (by decide)
        | cons f fs =>
            simp only [classify_written, check_coordinates_response, pyTruthy]
            rw [if_pos (by simp)]
            simp only [check_coordinates_try, pyGet, hd, bind, Except.bind]
            rw [if_pos (by decide)]
            decide
    | pnull => simp [descOf, pyGet] at hd
    | pbool b => simp [descOf, pyGet] at hd
    | pnum q => simp [descOf, pyGet] at hd
    | pstr s => simp [descOf, pyGet] at hd
    | parr xs => simp [descOf, pyGet] at hd
  · -- occupied pickup-point description
    intro r hd
    cases r with
    | pobj fields =>
        simp only [descOf, pyGet, Except.ok.injEq] at hd
        cases fields with
        | nil =>
            simp only [pyLookup] at hd
            injection hd with hd2
            exact absurd hd2 (by decide)
        | cons f fs =>
            simp only [classify_written, check_coordinates_response, pyTruthy]
            rw [if_pos (by simp)]
            simp only [check_coordinates_try, pyGet, hd, bind, Except.bind]
            rw [if_neg (by decide), if_pos (by decide)]
            decide
    | pnull => simp [descOf, pyGet] at hd
    | pbool b => simp [descOf, pyGet] at hd
    | pnum q => simp [descOf, pyGet] at hd
    | pstr s => simp [descOf, pyGet] at hd
    | parr xs => simp [descOf, pyGet] at hd
  · -- priority code new_build_zones: pink
    intro r d pzi hd hnr hnp hpr htr htc
    obtain ⟨fields, pf, gf, rfl, hpi, hgi, hpzi⟩ := priorityOf_shape hpr
    simp only [descOf, pyGet, Except.ok.injEq] at hd
    cases fields with
    | nil =>
        simp only [pyLookup] at hpi
        injection hpi with hpf
        subst hpf
        simp only [pyLookup] at hgi
        injection hgi with hgf
        subst hgf
        simp only [pyLookup] at hpzi
        rw [← hpzi] at htr
        exact absurd htr (by decide)
    | cons f fs =>
        obtain ⟨zf, rfl, htc2⟩ : ∃ zf, pzi = .pobj zf ∧
            pyLookup zf (strL "text_code") .pnull = .pstr (strL "new_build_zones") := by
          cases pzi <;> simp only [pyGet, Except.ok.injEq] at htc
          case pobj zf => exact ⟨zf, rfl, htc⟩
          all_goals cases htc
        simp only [classify_written, check_coordinates_response, pyTruthy]
        rw [if_pos (by simp)]
        simp only [check_coordinates_try, pyGet, hd, bind, Except.bind]
        simp only [hnr, Bool.false_eq_true, if_false, hnp]
        simp only [hpi, hgi, hpzi, htr, if_true]
        simp only [htc2, pyEqStr, pure, Except.pure]
        rw [if_pos (by decide)]
        decide
  · -- priority code load_predict: purple
    intro r d pzi hd hnr hnp hpr htr htc
    obtain ⟨fields, pf, gf, rfl, hpi, hgi, hpzi⟩ := priorityOf_shape hpr
    simp only [descOf, pyGet, Except.ok.injEq] at hd
    cases fields with
    | nil =>
        simp only [pyLookup] at hpi
        injection hpi with hpf
        subst hpf
        simp only [pyLookup] at hgi
        injection hgi with hgf
        subst hgf
        simp only [pyLookup] at hpzi
        rw [← hpzi] at htr
        exact absurd htr (by decide)
    | cons f fs =>
        obtain ⟨zf, rfl, htc2⟩ : ∃ zf, pzi = .pobj zf ∧
            pyLookup zf (strL "text_code") .pnull = .pstr (strL "load_predict") := by
          cases pzi <;> simp only [pyGet, Except.ok.injEq] at htc
          case pobj zf => exact ⟨zf, rfl, htc⟩
          all_goals cases htc
        simp only [classify_written, check_coordinates_response, pyTruthy]
        rw [if_pos (by simp)]
        simp only [check_coordinates_try, pyGet, hd, bind, Except.bind]
        simp only [hnr, Bool.false_eq_true, if_false, hnp]
        simp only [hpi, hgi, hpzi, htr, if_true]
        simp only [htc2, pyEqStr, pure, Except.pure]
        rw [if_neg (by decide), if_pos (by decide)]
        decide
  · -- truthy priority with unrecognized code falls through to green_zone
    intro r d pzi tc hd hnr hnp hpr htr htc hn1 hn2 hzt
    obtain ⟨fields, pf, gf, rfl, hpi, hgi, hpzi⟩ := priorityOf_shape hpr
    obtain ⟨fields2, pf2, zf, heq, hpi2, hzi, htz⟩ := zoneTextOf_shape hzt
    injection heq with heq2
    subst heq2
    rw [hpi] at hpi2
    injection hpi2 with heq3
    subst heq3
    obtain ⟨qf, rfl, htc2⟩ : ∃ qf, pzi = .pobj qf ∧
        pyLookup qf (strL "text_code") .pnull = tc := by
      cases pzi <;> simp only [pyGet, Except.ok.injEq] at htc
      case pobj qf => exact ⟨qf, rfl, htc⟩
      all_goals cases htc
    simp only [descOf, pyGet, Except.ok.injEq] at hd
    cases fields with
    | nil =>
        rw [← hpzi] at htr
        simp only [pyLookup] at hpi
        injection hpi with h1
        subst h1
        simp only [pyLookup] at hgi
        injection hgi with h2
        subst h2
        simp only [pyLookup] at htr
        exact absurd htr (by decide)
    | cons f fs =>
        simp only [classify_written, check_coordinates_response, pyTruthy]
        rw [if_pos (by simp)]
        simp only [check_coordinates_try, pyGet, hd, bind, Except.bind]
        simp only [hnr, Bool.false_eq_true, if_false, hnp]
        simp only [hpi, hgi, hpzi, htr, if_true, htc2, hn1, hn2, hzi, htz]
        simp only [pure, Except.pure, Bool.false_eq_true, if_false]
        rw [if_pos (by decide)]
        decide
  · -- falsy priority info, general zone green_zone: green
    intro r d pzi hd hnr hnp hpr htr hzt
    obtain ⟨fields, pf, gf, rfl, hpi, hgi, hpzi⟩ := priorityOf_shape hpr
    obtain ⟨fields2, pf2, zf, heq, hpi2, hzi, htz⟩ := zoneTextOf_shape hzt
    injection heq with heq2
    subst heq2
    rw [hpi] at hpi2
    injection hpi2 with heq3
    subst heq3
    simp only [descOf, pyGet, Except.ok.injEq] at hd
    cases fields with
    | nil =>
        simp only [pyLookup] at hpi
        injection hpi with hpf
        subst hpf
        simp only [pyLookup] at hzi
        injection hzi with hzf
        subst hzf
        simp only [pyLookup] at htz
        exact PyVal.noConfusion htz
    | cons f fs =>
        simp only [classify_written, check_coordinates_response, pyTruthy]
        rw [if_pos (by simp)]
        simp only [check_coordinates_try, pyGet, hd, bind, Except.bind]
        simp only [hnr, Bool.false_eq_true, if_false, hnp]
        simp only [hpi, hgi, hpzi, htr, hzi, htz]
        simp only [pure, Except.pure, Bool.false_eq_true, if_false]
        rw [if_pos (by decide)]
        decide
  · -- no recognizable signal: N/A
    intro r d pzi tz hd hnr hnp hpr htr hzt hng
    obtain ⟨fields, pf, gf, rfl, hpi, hgi, hpzi⟩ := priorityOf_shape hpr
    obtain ⟨fields2, pf2, zf, heq, hpi2, hzi, htz⟩ := zoneTextOf_shape hzt
    injection heq with heq2
    subst heq2
    rw [hpi] at hpi2
    injection hpi2 with heq3
    subst heq3
    simp only [descOf, pyGet, Except.ok.injEq] at hd
    cases fields with
    | nil =>
        decide
    | cons f fs =>
        simp only [classify_written, check_coordinates_response, pyTruthy]
        rw [if_pos (by simp)]
        simp only [check_coordinates_try, pyGet, hd, bind, Except.bind]
        simp only [hnr, Bool.false_eq_true, if_false, hnp]
        simp only [hpi, hgi, hpzi, htr, hzi, htz, hng]
        simp only [pure, Except.pure, Bool.false_eq_true, if_false]
        decide
  · -- the loop writes every data row independently and continues to the end
    intro fetch maxColumn rows
    simp [wb_process_table]

/-- Witness for C7: a concrete response carrying the priority code
new_build_zones is written as pink. -/
theorem wb_written_classification_witness :
    classify_written (some (.pobj
      [(strL "description", .pstr (strL "ok")),
       (strL "point_info", .pobj
         [(strL "zone_info", .pobj [(strL "text_code", .pstr (strL "green_zone"))]),
          (strL "general_info", .pobj
            [(strL "priority_zone_info", .pobj
              [(strL "text_code", .pstr (strL "new_build_zones"))])])])])) =
      strL "розовая" := by
  apply (wb_written_classification.2.2.2.2.1 _
    (.pstr (strL "ok"))
    (.pobj [(strL "text_code", .pstr (strL "new_build_zones"))]))
  · rfl
  · decide
  · decide
  · rfl
  · decide
  · rfl

/-- A persisted row whose classification column (COLUMN_COLOR = 26) already
holds the terminal purple value, while column 2 holds the external id — the
layout produced by `save_and_check` under `COLUMN_ORDER` plus a previous
classifier run. -/
def purpleClassifiedRow : WRow :=
  { cells := (List.range 26).map fun i =>
      if i = 1 then some (strL "12345")
      else if i = 22 then some (strL "lat = 55.75, lng = 37.61")
      else if i = 25 then some (strL "фиолетовая")
      else none
    fills := List.replicate 26 none }

/-- A row whose COLUMN 2 (external_id position) happens to hold the purple
string: the only layout the skip check actually reacts to. -/
def misplacedColorRow : WRow :=
  { cells := (List.range 26).map fun i =>
      if i = 1 then some (strL "фиолетовая")
      else if i = 22 then some (strL "lat = 55.75, lng = 37.61")
      else none
    fills := List.replicate 26 none }

/-- C1 (code bug): the skip check in `main` reads hard-coded column 2 while
`set_status_to_table` writes the classification to COLUMN_COLOR = 26.  A row
whose classification column already holds purple is therefore re-queried and
its classification overwritten (here with N/A because the lookup fails),
while a row carrying the purple string in column 2 — the external-id
position — is the one that gets skipped untouched. -/
theorem wb_purple_row_requeried :
    cellAt purpleClassifiedRow COLUMN_COLOR = some (strL "фиолетовая") ∧
    cellAt (wb_process_row (fun _ _ => none) 26 purpleClassifiedRow) COLUMN_COLOR =
      some (strL "N/A") ∧
    wb_process_row (fun _ _ => none) 26 misplacedColorRow = misplacedColorRow := by
  refine ⟨rfl, ?_, ?_⟩ <;> decide

/-! ### price_per_m2 (src/main.py lines 329 and 494)

Both scrapers assemble the field with the same expression
`round(price_total/area_m2, 2) if price_total and area_m2 else None`.
Python floats are idealized as rationals; Python `round` is half-to-even. -/

/-- Python `round` to an integer: half-to-even (banker's rounding). -/
def roundHalfEven (q : ℚ) : ℤ :=
  if q - ⌊q⌋ < 1/2 then ⌊q⌋
  else if (1 : ℚ)/2 < q - ⌊q⌋ then ⌊q⌋ + 1
  else if ⌊q⌋ % 2 = 0 then ⌊q⌋ else ⌊q⌋ + 1

/-- Python `round(q, 2)`. -/
def round2 (q : ℚ) : ℚ := (roundHalfEven (q * 100) : ℚ) / 100

/-- The shared field expression: note the Python truthiness test
`if price_total and area_m2` — a present value of `0` is falsy. -/
def price_per_m2 (price_total area_m2 : Option ℚ) : Option ℚ :=
  match price_total, area_m2 with
  | some p, some a => if p ≠ 0 ∧ a ≠ 0 then some (round2 (p / a)) else none
  | _, _ => none

/-- C5 counterexample: a present price_total of 0 with a valid area yields
null, not 0.0 — the truthiness guard treats 0 as absent. -/
theorem price_per_m2_zero_price_counterexample :
    price_per_m2 (some 0) (some 50) = none ∧
    price_per_m2 (some 0) (some 50) ≠ some 0 := by
  constructor
  · simp [price_per_m2]
  · simp [price_per_m2]

/-- C5 amended: price_per_m2 equals round(price_total / area_m2, 2) when both
operands are present and non-zero, and is null exactly when either operand is
null or zero (in particular a present price_total of 0 yields null). -/
theorem price_per_m2_nullness :
    (∀ p a, price_per_m2 p a = none ↔
      (p = none ∨ p = some 0 ∨ a = none ∨ a = some 0)) ∧
    (∀ p a, p ≠ 0 → a ≠ 0 → price_per_m2 (some p) (some a) = some (round2 (p / a))) := by
  constructor
  · intro p a
    cases p with
    | none => simp [price_per_m2]
    | some p =>
        cases a with
        | none => simp [price_per_m2]
        | some a =>
            by_cases hp : p = 0
            · simp [price_per_m2, hp]
            · by_cases ha : a = 0
              · simp [price_per_m2, hp, ha]
              · simp [price_per_m2, hp, ha]
  · intro p a hp ha
    simp [price_per_m2, hp, ha]

/-- Witness for the amended C5 at price 100000, area 50. -/
theorem price_per_m2_nullness_witness :
    price_per_m2 (some 100000) (some 50) = some (round2 (100000 / 50)) :=
  price_per_m2_nullness.2 100000 50 (by norm_num) (by norm_num)

/-! ### normalize_address_for_geocoding (src/main.py lines 102-116) -/

/-- A Python value passed where a string is expected: an actual string, None,
or any other non-string object carrying its `str()` rendering and its
truthiness. -/
inductive PyArg where
  | pstr (s : Str)
  | pnone
  | other (repr : Str) (truthy : Bool)

/-- `re.sub(r"\s*\([^\)]*\)", "", ...)` step: a match at the current position
is a maximal whitespace run followed directly by `(` with a later `)`; on a
match, the text through the first following `)` is consumed. -/
def tryParenMatch (l : Str) : Option Str :=
  match l.dropWhile isPyWs with
  | '(' :: rest2 =>
      if ')' ∈ rest2 then some ((dropFromMem [')'] rest2).drop 1) else none
  | _ => none

def removeParensGo : Nat → Str → Str
  | 0, s => s
  | _ + 1, [] => []
  | f + 1, c :: r =>
      match tryParenMatch (c :: r) with
      | some rest => removeParensGo f rest
      | none => c :: removeParensGo f r

/-- Delete every parenthesized group (with any directly preceding
whitespace), scanning left to right like `re.sub`. -/
def removeParens (s : Str) : Str := removeParensGo s.length s

/-- The administrative-district token list of the source, verbatim. -/
def tokens_to_drop : List Str :=
  [strL "р-н", strL "район", strL "АО", strL "округ", strL "адм. округ",
   strL "АДМ Округ", strL "ЦАО", strL "САО", strL "СВАО", strL "ЮВАО",
   strL "ЮАО", strL "ЮЗАО", strL "ЗАО", strL "СЗАО", strL "НАО", strL "ТАО",
   strL "НАО (Новомосковский)", strL "ТАО (Троицкий)"]

/-- Python substring test `needle in hay`. -/
def containsSub (hay needle : Str) : Bool :=
  hay.tails.any fun t => needle.isPrefixOf t

/-- Python `', '.join`. -/
def joinCommaSpace : List Str → Str
  | [] => []
  | [x] => x
  | x :: y :: rest => x ++ strL ", " ++ joinCommaSpace (y :: rest)

/-- The cleaned address `a`: marker removed, stripped of spaces and commas at
the ends, parenthesized groups deleted (lines 106 and 111). -/
def addr_cleaned (addrs : Str) : Str :=
  removeParens (stripBoth (fun c => c = ' ' ∨ c = ',') (pyReplace (strL "На карте") [] addrs))

/-- `parts` (line 112): comma segments, each stripped, empties dropped. -/
def addr_parts (addrs : Str) : List Str :=
  ((pySplit (strL ",") (addr_cleaned addrs)).map (stripBoth isPyWs)).filter
    (fun p => !p.isEmpty)

/-- `filtered` before the city insertion (line 113). -/
def addr_filtered (addrs : Str) : List Str :=
  (addr_parts addrs).filter fun p =>
    ! tokens_to_drop.any fun tok => containsSub (pyLower p) (pyLower tok)

/-- Truthiness of the optional city argument. -/
def cityTruthy : Option Str → Bool
  | none => false
  | some s => !s.isEmpty

/-- normalize_address_for_geocoding.  The optional city is a string or None
(every caller passes a spreadsheet/CLI city value). -/
def normalize_address_for_geocoding (address : PyArg) (city : Option Str) : Str :=
  match address with
  | .pstr addrs =>
      let a := addr_cleaned addrs
      let filtered := addr_filtered addrs
      let filtered :=
        match city with
        | some cv =>
            if !cv.isEmpty &&
                filtered.all (fun p => ! containsSub (pyLower p) (pyLower cv)) then
              cv :: filtered
            else filtered
        | none => filtered
      if !filtered.isEmpty then joinCommaSpace filtered
      else
        match city with
        | some cv => if !cv.isEmpty then cv ++ strL ", " ++ a else a
        | none => a
  | .pnone => strL "None"
  | .other r _ => r

/-- Python truthiness of the address-typed arguments. -/
def pyArgTruthy : PyArg → Bool
  | .pstr s => !s.isEmpty
  | .pnone => false
  | .other _ b => b

/-- Python `x or y`. -/
def pyOr (x y : PyArg) : PyArg := if pyArgTruthy x then x else y

/-- src/main.py line 522: the geocoding query that `_ensure_coords_and_notes`
derives for a row, `normalize_address_for_geocoding(row.get('address_raw') or
row.get('title'), row.get('city'))`. -/
def ensure_coords_query (address_raw title : PyArg) (city : Option Str) : Str :=
  normalize_address_for_geocoding (pyOr address_raw title) city

/-- src/main.py line 523: `if not address: continue` — the row is skipped
exactly when the derived query is an empty string. -/
def ensure_coords_row_skipped (address_raw title : PyArg) (city : Option Str) : Bool :=
  (ensure_coords_query address_raw title city).isEmpty

/-- C4 counterexample: an address made only of an administrative-district
token, with a city supplied, normalizes to just the city — not to
`"city, original-address"` as claimed: the city insertion on line 114-115
fires first (the filtered list is empty, so the `all` test is vacuously
true), which makes the claimed fallback branch unreachable whenever the city
is truthy. -/
theorem address_all_filtered_counterexample :
    normalize_address_for_geocoding (.pstr (strL "ЦАО")) (some (strL "Москва")) =
      strL "Москва" ∧
    normalize_address_for_geocoding (.pstr (strL "ЦАО")) (some (strL "Москва")) ≠
      strL "Москва, ЦАО" := by
  constructor
  · decide
  · decide

/-- C4 amended: when every comma segment of the cleaned address is filtered
away by the district-token filter, the normalizer returns just the city when
a truthy city is supplied (the city is inserted into the empty list, so the
fallback never runs), and the cleaned original address — marker removed,
ends stripped of spaces and commas, parenthesized groups deleted — when the
city is absent or empty. -/
theorem address_all_filtered_fallback (addrs : Str) (city : Option Str)
    (h : addr_filtered addrs = []) :
    (∀ cv, city = some cv → cv ≠ [] →
      normalize_address_for_geocoding (.pstr addrs) city = cv) ∧
    (cityTruthy city = false →
      normalize_address_for_geocoding (.pstr addrs) city = addr_cleaned addrs) := by
  constructor
  · rintro cv rfl hcv
    have hc1 : cv.isEmpty = false := by
      simp [List.isEmpty_iff]
      exact hcv
    simp [normalize_address_for_geocoding, h, hc1, joinCommaSpace]
  · intro hcf
    cases city with
    | none =>
        simp only [normalize_address_for_geocoding, h]
        rfl
    | some cv =>
        have hcv : cv = [] := by
          simp only [cityTruthy, Bool.not_eq_false', List.isEmpty_iff] at hcf
          exact hcf
        subst hcv
        simp only [normalize_address_for_geocoding, h]
        rfl

/-- Witness for the amended C4 at the all-filtered address `ЦАО`. -/
theorem address_all_filtered_fallback_witness :
    normalize_address_for_geocoding (.pstr (strL "ЦАО")) (some (strL "Москва")) =
      strL "Москва" ∧
    normalize_address_for_geocoding (.pstr (strL "ЦАО")) none =
      addr_cleaned (strL "ЦАО") := by
  constructor
  · exact (address_all_filtered_fallback (strL "ЦАО") (some (strL "Москва"))
      (by decide)).1 (strL "Москва") rfl (by decide)
  · exact (address_all_filtered_fallback (strL "ЦАО") none (by decide)).2 rfl

/-- C10: the address normalizer is total over arbitrary inputs — a non-string
argument (None included) is returned as its `str()` rendering instead of
raising, so a record with absent address_raw and title yields the non-empty
geocoding query `None` and is not skipped by `if not address: continue`. -/
theorem address_normalizer_total :
    (∀ r b c, normalize_address_for_geocoding (.other r b) c = r) ∧
    (∀ c, normalize_address_for_geocoding .pnone c = strL "None") ∧
    (∀ c, ensure_coords_query .pnone .pnone c = strL "None") ∧
    (∀ c, ensure_coords_row_skipped .pnone .pnone c = false) :=
  ⟨fun _ _ _ => rfl, fun _ => rfl, fun _ => rfl, fun _ => rfl⟩

/-- Witness for C10 at a concrete city. -/
theorem address_normalizer_total_witness :
    ensure_coords_query .pnone .pnone (some (strL "Москва")) = strL "None" ∧
    ensure_coords_row_skipped .pnone .pnone (some (strL "Москва")) = false :=
  ⟨address_normalizer_total.2.2.1 (some (strL "Москва")),
   address_normalizer_total.2.2.2 (some (strL "Москва"))⟩

/-! ### Coordinate Resolver of scrape_cian (src/main.py lines 266-283)

The loop over `application/ld+json` script blocks assigns `lat` then `lng`
from a structured geo object and breaks on success; json/float failures at
any point are caught and scanning continues.  Each block therefore
contributes one of three outcomes: no assignment (malformed json, geo not a
truthy dict pair, `float(latitude)` raised), a partial assignment
(`float(longitude)` raised after `lat` was set), or both coordinates with a
break.  The inline `"latitude": ... "longitude":` regex result is the second
input; it is consulted only under `if lat is None or lng is None`. -/

inductive ScriptOutcome where
  | parseFail
  | latOnly (lat : ℚ)
  | both (lat lng : ℚ)

/-- The script loop with its mutable `lat`/`lng` state. -/
def scanScripts : List ScriptOutcome → Option ℚ → Option ℚ → Option ℚ × Option ℚ
  | [], lat, lng => (lat, lng)
  | s :: rest, lat, lng =>
      match s with
      | .parseFail => scanScripts rest lat lng
      | .latOnly la => scanScripts rest (some la) lng
      | .both la ln => (some la, some ln)

/-- Lines 266-283 as a whole: structured scan first, then the inline regex
fallback only when the scan left either coordinate unset. -/
def cian_resolve_coords (scripts : List ScriptOutcome)
    (inlinePattern : Option (ℚ × ℚ)) : Option ℚ × Option ℚ :=
  let s := scanScripts scripts none none
  if s.1.isNone ∨ s.2.isNone then
    match inlinePattern with
    | some (la, ln) => (some la, some ln)
    | none => s
  else s

def isBoth : ScriptOutcome → Bool
  | .both _ _ => true
  | _ => false

theorem scanScripts_reaches_both (pre : List ScriptOutcome) (la ln : ℚ)
    (post : List ScriptOutcome) :
    ∀ lat lng, (∀ s ∈ pre, isBoth s = false) →
      scanScripts (pre ++ .both la ln :: post) lat lng = (some la, some ln) := by
  induction pre with
  | nil => intro lat lng _; rfl
  | cons s pre' ih =>
      intro lat lng hpre
      cases s with
      | parseFail => exact ih lat lng fun x hx => hpre x (by simp [hx])
      | latOnly q => exact ih (some q) lng fun x hx => hpre x (by simp [hx])
      | both q1 q2 =>
          exact absurd (hpre (ScriptOutcome.both q1 q2) (by simp)) (by simp [isBoth])

theorem scanScripts_no_both (scripts : List ScriptOutcome) :
    ∀ lat lng, (∀ s ∈ scripts, isBoth s = false) →
      (scanScripts scripts lat lng).2 = lng := by
  induction scripts with
  | nil => intro lat lng _; rfl
  | cons s rest ih =>
      intro lat lng h
      cases s with
      | parseFail => exact ih lat lng fun x hx => h x (by simp [hx])
      | latOnly q => exact ih (some q) lng fun x hx => h x (by simp [hx])
      | both q1 q2 =>
          exact absurd (h (ScriptOutcome.both q1 q2) (by simp)) (by simp [isBoth])

/-- C6: when the page holds a structured geo block that yields a full
coordinate pair, the first such block wins and any conflicting inline regex
pair is ignored; the inline fallback is consulted exactly when the
structured scan produced no complete pair, and every malformed block merely
degrades the scan to the next strategy (all outcomes are total — nothing
raises). -/
theorem cian_coord_precedence :
    (∀ pre la ln post inlinePattern, (∀ s ∈ pre, isBoth s = false) →
      cian_resolve_coords (pre ++ .both la ln :: post) inlinePattern =
        (some la, some ln)) ∧
    (∀ scripts ila iln, (∀ s ∈ scripts, isBoth s = false) →
      cian_resolve_coords scripts (some (ila, iln)) = (some ila, some iln)) := by
  constructor
  · intro pre la ln post inlinePattern hpre
    unfold cian_resolve_coords
    rw [scanScripts_reaches_both pre la ln post none none hpre]
    simp
  · intro scripts ila iln h
    unfold cian_resolve_coords
    have h2 := scanScripts_no_both scripts none none h
    rw [if_pos (by rw [h2]; right; rfl)]

/-- Witness for C6: a malformed block, then a partial block, then a full geo
block, with a conflicting inline pair — the geo block wins; with no full
block the inline pair is used. -/
theorem cian_coord_precedence_witness :
    cian_resolve_coords [.parseFail, .latOnly 1, .both 55 37] (some (2, 3)) =
      (some 55, some 37) ∧
    cian_resolve_coords [.parseFail, .latOnly 1] (some (2, 3)) = (some 2, some 3) := by
  constructor
  · exact cian_coord_precedence.1 [.parseFail, .latOnly 1] 55 37 [] (some (2, 3))
      (by decide)
  · exact cian_coord_precedence.2 [.parseFail, .latOnly 1] 2 3 (by decide)

/-! ### normalize_url (src/main.py lines 119-140)

The primary path goes through CPython `urllib.parse.urlparse` /
`urlunparse`; the model below transcribes the CPython algorithm (scheme
detection at the first colon, `//`-authority split at the first of `/?#`,
fragment then query split, parameter split off the last path segment for the
schemes in `uses_params`).  Deviations, all guarded by the theorem
hypotheses below: the model raises on any bracket in the authority (CPython
additionally validates bracketed IPv6 hosts, version-dependently), and the
non-ASCII NFKC netloc check plus unicode lower-casing are not modelled — the
idempotence theorem therefore carries an all-ASCII hypothesis. -/

def isAsciiAlpha (c : Char) : Bool :=
  ('a' ≤ c ∧ c ≤ 'z') ∨ ('A' ≤ c ∧ c ≤ 'Z')

/-- CPython `scheme_chars`. -/
def isSchemeChar (c : Char) : Bool :=
  ('a' ≤ c ∧ c ≤ 'z') ∨ ('A' ≤ c ∧ c ≤ 'Z') ∨ ('0' ≤ c ∧ c ≤ '9') ∨
    c = '+' ∨ c = '-' ∨ c = '.'

/-- C0 control characters and space (the WHATWG strip set). -/
def isC0OrSpace (c : Char) : Bool := c.toNat ≤ 0x20

structure SplitResult where
  scheme : Str
  netloc : Str
  path : Str
  query : Str
  fragment : Str
deriving DecidableEq

/-- Scheme detection: the text before the first `:` is a scheme iff it is
non-empty, starts with an ASCII letter, and consists of scheme characters;
it is then lower-cased and consumed. -/
def splitScheme (url : Str) : Str × Str :=
  match dropFromMem [':'] url, takeUntilMem [':'] url with
  | _ :: after, c0 :: pre' =>
      if isAsciiAlpha c0 && (c0 :: pre').all isSchemeChar then
        (pyLower (c0 :: pre'), after)
      else ([], url)
  | _, _ => ([], url)

/-- Authority (netloc) extraction step of `urlsplit`: consumes a leading
`//` and reads up to the next `/`, `?` or `#`; brackets outside a bracketed
host are a `ValueError`. -/
def splitAuthority (rest : Str) : Except Unit (Str × Str) :=
  match rest with
  | '/' :: '/' :: r2 =>
      let netloc := takeUntilMem ['/', '?', '#'] r2
      if '[' ∈ netloc ∨ ']' ∈ netloc then .error ()
      else .ok (netloc, dropFromMem ['/', '?', '#'] r2)
  | _ => .ok ([], rest)

/-- CPython `urlsplit` (minus the unicode-only checks, see section note). -/
def urlsplit (url0 : Str) : Except Unit SplitResult :=
  let url1 := stripLeft isC0OrSpace url0
  let url2 := url1.filter fun c => ¬ (c = '\t' ∨ c = '\r' ∨ c = '\n')
  let sr := splitScheme url2
  let scheme := sr.1
  let rest := sr.2
  match splitAuthority rest with
  | .error e => .error e
  | .ok (netloc, rest2) =>
      let fr : Str × Str :=
        if '#' ∈ rest2 then
          (takeUntilMem ['#'] rest2, (dropFromMem ['#'] rest2).drop 1)
        else (rest2, [])
      let qr : Str × Str :=
        if '?' ∈ fr.1 then
          (takeUntilMem ['?'] fr.1, (dropFromMem ['?'] fr.1).drop 1)
        else (fr.1, [])
      .ok ⟨scheme, netloc, qr.1, qr.2, fr.2⟩

/-- CPython `uses_params`. -/
def uses_params : List Str :=
  [[], strL "ftp", strL "hdl", strL "prospero", strL "http", strL "imap",
   strL "https", strL "shttp", strL "rtsp", strL "rtsps", strL "rtspu",
   strL "sip", strL "sips", strL "mms", strL "sftp", strL "tel"]

/-- CPython `uses_netloc`. -/
def uses_netloc : List Str :=
  [[], strL "ftp", strL "http", strL "gopher", strL "nntp", strL "telnet",
   strL "imap", strL "wais", strL "file", strL "mms", strL "https",
   strL "shttp", strL "snews", strL "prospero", strL "rtsp", strL "rtsps",
   strL "rtspu", strL "rsync", strL "svn", strL "svn+ssh", strL "sftp",
   strL "nfs", strL "git", strL "git+ssh", strL "ws", strL "wss"]

/-- CPython `_splitparams`: parameters are split off the last path segment
only. -/
def splitparams (url : Str) : Str × Str :=
  if '/' ∈ url then
    let seg := (takeUntilMem ['/'] url.reverse).reverse
    if ';' ∈ seg then
      (url.take (url.length - seg.length) ++ takeUntilMem [';'] seg,
        (dropFromMem [';'] seg).drop 1)
    else (url, [])
  else
    if ';' ∈ url then (takeUntilMem [';'] url, (dropFromMem [';'] url).drop 1)
    else (url, [])

structure ParseResult where
  scheme : Str
  netloc : Str
  path : Str
  params : Str
  query : Str
  fragment : Str
deriving DecidableEq

/-- CPython `urlparse`. -/
def urlparse (url : Str) : Except Unit ParseResult :=
  match urlsplit url with
  | .error e => .error e
  | .ok r =>
      if r.scheme ∈ uses_params ∧ ';' ∈ r.path then
        let pp := splitparams r.path
        .ok ⟨r.scheme, r.netloc, pp.1, pp.2, r.query, r.fragment⟩
      else .ok ⟨r.scheme, r.netloc, r.path, [], r.query, r.fragment⟩

/-- CPython `urlunsplit`: the authority marker `//` is emitted when a netloc
is present, or when the scheme conventionally uses one and the path does not
already begin with `//`. -/
def urlunsplit (scheme netloc path query fragment : Str) : Str :=
  let url := path
  let url :=
    if netloc ≠ [] ∨ (scheme ≠ [] ∧ scheme ∈ uses_netloc ∧ url.take 2 ≠ strL "//") then
      strL "//" ++ netloc ++
        (if url ≠ [] ∧ url.take 1 ≠ strL "/" then '/' :: url else url)
    else url
  let url := if scheme ≠ [] then scheme ++ ':' :: url else url
  let url := if query ≠ [] then url ++ '?' :: query else url
  if fragment ≠ [] then url ++ '#' :: fragment else url

/-- CPython `urlunparse`. -/
def urlunparse (scheme netloc path params query fragment : Str) : Str :=
  urlunsplit scheme netloc
    (if params ≠ [] then path ++ ';' :: params else path) query fragment

/-- normalize_url: the primary `urlparse` path (scheme defaulted to https
only when absent, host lower-cased with one leading `www.` stripped, path
stripped of trailing slashes, query/fragment/params dropped), with the
string-manipulation fallback on a parse error. -/
def normalize_url (url : Str) : Str :=
  let s := stripBoth isPyWs url
  match urlparse s with
  | .ok p =>
      let scheme := if p.scheme = [] then strL "https" else p.scheme
      let netloc := pyLower p.netloc
      let netloc := if (strL "www.").isPrefixOf netloc then netloc.drop 4 else netloc
      let path := rstripSlash p.path
      urlunparse scheme netloc path [] [] []
  | .error _ =>
      let s2 := rstripSlash (takeUntilMem ['?'] (takeUntilMem ['#'] url))
      let s2 := pyReplace (strL "http://") (strL "https://") s2
      pyReplace (strL "https://www.") (strL "https://") s2

/-! ### Character-level facts for the normalize_url proofs.

Established by finite check over the ASCII range; the idempotence theorem
restricts its input to printable ASCII, which keeps the unmodelled unicode
behavior of CPython (NFKC netloc check, unicode lower-casing) out of its
domain. -/

theorem char_toNat_ofNat {n : Nat} (h : n.isValidChar) : (Char.ofNat n).toNat = n := by
  simp [Char.ofNat, dif_pos h, Char.ofNatAux, Char.toNat, UInt32.toNat, BitVec.toNat_ofNat]

theorem char_eq_toNat {a b : Char} : a = b ↔ a.toNat = b.toNat := by
  constructor
  · rintro rfl; rfl
  · intro h
    apply Char.eq_of_val_eq
    exact UInt32.ext h

theorem char_le_toNat {a b : Char} : a ≤ b ↔ a.toNat ≤ b.toNat := Char.le_def

theorem char_ofNat_toNat (c : Char) : Char.ofNat c.toNat = c := by
  rw [char_eq_toNat]
  apply char_toNat_ofNat
  exact c.valid

/-- Finite-check principle: a decidable character property holding on every
ASCII code point holds on every ASCII character. -/
theorem ascii_char_cases {c : Char} (h : c.toNat < 128) (P : Char → Prop)
    [DecidablePred P] (hall : ∀ n, n < 128 → P (Char.ofNat n)) : P c := by
  have := hall c.toNat h
  rwa [char_ofNat_toNat] at this

/-- Printable ASCII: the idempotence domain for URLs. -/
def printableAscii (c : Char) : Prop := 0x20 < c.toNat ∧ c.toNat < 128

instance : DecidablePred printableAscii := fun c => by
  unfold printableAscii
  exact inferInstance

theorem pyLowerChar_idem {c : Char} (h : c.toNat < 128) :
    pyLowerChar (pyLowerChar c) = pyLowerChar c :=
  ascii_char_cases h (fun x => pyLowerChar (pyLowerChar x) = pyLowerChar x) (by decide)

theorem pyLowerChar_printable {c : Char} (h : printableAscii c) :
    printableAscii (pyLowerChar c) :=
  ascii_char_cases h.2 (fun x => 0x20 < x.toNat → printableAscii (pyLowerChar x))
    (by decide) h.1

/-- Characterization of ASCII lower-casing on printable characters. -/
theorem pyLowerChar_toNat {c : Char} (h1 : 0x20 < c.toNat) (h2 : c.toNat < 128) :
    (pyLowerChar c).toNat = c.toNat ∨
      ((pyLowerChar c).toNat = c.toNat + 32 ∧ 65 ≤ c.toNat ∧ c.toNat ≤ 90) := by
  unfold pyLowerChar
  by_cases hA : 'A' ≤ c ∧ c ≤ 'Z'
  · rw [if_pos hA]
    obtain ⟨hA1, hA2⟩ := hA
    rw [char_le_toNat] at hA1 hA2
    right
    refine ⟨char_toNat_ofNat (Or.inl (by omega)), by simpa using hA1, by simpa using hA2⟩
  · rw [if_neg hA, if_neg ?hcyr, if_neg ?hyo]
    · left; rfl
    case hyo =>
      rintro rfl
      revert h2
      decide
    case hcyr =>
      rintro ⟨hc1, hc2⟩
      rw [char_le_toNat, show 'А'.toNat = 1040 from rfl] at hc1
      omega

/-- Lower-casing a printable ASCII character yields a given
non-lowercase-letter target only if the character already was the target. -/
theorem pyLowerChar_ne {c d : Char} (h : printableAscii c)
    (hd : d.toNat < 97 ∨ 122 < d.toNat) (hne : c ≠ d) : pyLowerChar c ≠ d := by
  intro he
  rcases pyLowerChar_toNat h.1 h.2 with h1 | ⟨h1, h2, h3⟩
  · exact hne (char_eq_toNat.mpr (by rw [← h1, ← he]))
  · rw [char_eq_toNat] at he
    omega

theorem mem_takeUntilMem {ds : List Char} {l : Str} {c : Char}
    (h : c ∈ takeUntilMem ds l) : c ∈ l ∧ c ∉ ds := by
  induction l with
  | nil => simp [takeUntilMem] at h
  | cons x r ih =>
      by_cases hx : x ∈ ds
      · simp [takeUntilMem, hx] at h
      · rw [takeUntilMem, if_neg hx] at h
        rcases List.mem_cons.mp h with rfl | h2
        · exact ⟨by simp, hx⟩
        · obtain ⟨h3, h4⟩ := ih h2
          exact ⟨by simp [h3], h4⟩

theorem mem_dropFromMem {ds : List Char} {l : Str} {c : Char}
    (h : c ∈ dropFromMem ds l) : c ∈ l := by
  induction l with
  | nil => simp [dropFromMem] at h
  | cons x r ih =>
      by_cases hx : x ∈ ds
      · rw [dropFromMem, if_pos hx] at h
        exact h
      · rw [dropFromMem, if_neg hx] at h
        exact List.mem_cons_of_mem x (ih h)

theorem dropFromMem_head {ds : List Char} {l r : Str} {c : Char}
    (h : dropFromMem ds l = c :: r) : c ∈ ds := by
  induction l with
  | nil => simp [dropFromMem] at h
  | cons x t ih =>
      by_cases hx : x ∈ ds
      · rw [dropFromMem, if_pos hx] at h
        rw [← ((List.cons.injEq x t c r).mp h).1]
        exact hx
      · rw [dropFromMem, if_neg hx] at h
        exact ih h

theorem dropWhile_noop {p : Char → Bool} {l : Str}
    (h : ∀ c ∈ l, p c = false) : l.dropWhile p = l := by
  cases l with
  | nil => rfl
  | cons c r => simp [List.dropWhile_cons, h c (by simp)]

theorem stripBoth_noop {p : Char → Bool} {l : Str}
    (h : ∀ c ∈ l, p c = false) : stripBoth p l = l := by
  unfold stripBoth
  rw [dropWhile_noop h, dropWhile_noop (fun c hc => h c (by simpa using hc))]
  simp

theorem splitScheme_cases (url : Str) :
    splitScheme url = ([], url) ∨
    ∃ pre after, url = pre ++ ':' :: after ∧
      splitScheme url = (pyLower pre, after) ∧ pre ≠ [] ∧
      pre.all isSchemeChar = true ∧ isAsciiAlpha (pre.headD 'a') = true := by
  cases hdf : dropFromMem [':'] url with
  | nil => left; simp [splitScheme, hdf]
  | cons c after =>
      have hc : c = ':' := by simpa using dropFromMem_head hdf
      subst hc
      cases htu : takeUntilMem [':'] url with
      | nil => left; simp [splitScheme, hdf, htu]
      | cons c0 pre' =>
          by_cases hv : (isAsciiAlpha c0 && (c0 :: pre').all isSchemeChar) = true
          · right
            obtain ⟨hv1, hv2⟩ : isAsciiAlpha c0 = true ∧ (c0 :: pre').all isSchemeChar = true := by
              simpa using hv
            refine ⟨c0 :: pre', after, ?_, ?_, by simp, hv2, by simpa using hv1⟩
            · rw [← takeUntilMem_append_dropFromMem [':'] url, htu, hdf]
            · simp only [splitScheme, hdf, htu]
              rw [if_pos hv]
          · left
            simp only [splitScheme, hdf, htu]
            rw [if_neg hv]

theorem isSchemeChar_ascii {c : Char} (h : isSchemeChar c = true) : c.toNat < 128 := by
  unfold isSchemeChar at h
  rw [decide_eq_true_eq] at h
  rcases h with ⟨h1, h2⟩ | ⟨h1, h2⟩ | ⟨h1, h2⟩ | rfl | rfl | rfl
  · rw [char_le_toNat, show 'z'.toNat = 122 from rfl] at h2
    omega
  · rw [char_le_toNat, show 'Z'.toNat = 90 from rfl] at h2
    omega
  · rw [char_le_toNat, show '9'.toNat = 57 from rfl] at h2
    omega
  · decide
  · decide
  · decide

theorem isSchemeChar_printable {c : Char} (h : isSchemeChar c = true) :
    printableAscii c := by
  refine ⟨?_, isSchemeChar_ascii h⟩
  unfold isSchemeChar at h
  rw [decide_eq_true_eq] at h
  rcases h with ⟨h1, h2⟩ | ⟨h1, h2⟩ | ⟨h1, h2⟩ | rfl | rfl | rfl
  · rw [char_le_toNat, show 'a'.toNat = 97 from rfl] at h1
    omega
  · rw [char_le_toNat, show 'A'.toNat = 65 from rfl] at h1
    omega
  · rw [char_le_toNat, show '0'.toNat = 48 from rfl] at h1
    omega
  · decide
  · decide
  · decide

theorem isSchemeChar_lower {c : Char} (h : isSchemeChar c = true) :
    isSchemeChar (pyLowerChar c) = true :=
  ascii_char_cases (isSchemeChar_ascii h)
    (fun x => isSchemeChar x = true → isSchemeChar (pyLowerChar x) = true)
    (by decide) h

theorem isAsciiAlpha_ascii {c : Char} (h : isAsciiAlpha c = true) : c.toNat < 128 := by
  unfold isAsciiAlpha at h
  rw [decide_eq_true_eq] at h
  rcases h with ⟨h1, h2⟩ | ⟨h1, h2⟩
  · rw [char_le_toNat, show 'z'.toNat = 122 from rfl] at h2
    omega
  · rw [char_le_toNat, show 'Z'.toNat = 90 from rfl] at h2
    omega

theorem isAsciiAlpha_lower {c : Char} (h : isAsciiAlpha c = true) :
    isAsciiAlpha (pyLowerChar c) = true :=
  ascii_char_cases (isAsciiAlpha_ascii h)
    (fun x => isAsciiAlpha x = true → isAsciiAlpha (pyLowerChar x) = true)
    (by decide) h

theorem pyLower_idem {l : Str} (h : ∀ c ∈ l, c.toNat < 128) :
    pyLower (pyLower l) = pyLower l := by
  induction l with
  | nil => rfl
  | cons c r ih =>
      simp only [pyLower, List.map_cons, List.map] at ih ⊢
      rw [pyLowerChar_idem (h c (by simp))]
      have := ih fun x hx => h x (by simp [hx])
      simp only [pyLower] at this
      rw [this]

theorem urlsplit_ok_facts {u : Str} {r : SplitResult} (hu : ∀ c ∈ u, printableAscii c)
    (h : urlsplit u = .ok r) :
    (r.scheme = [] ∨
      (r.scheme ≠ [] ∧ r.scheme.all isSchemeChar = true ∧
        isAsciiAlpha (r.scheme.headD 'a') = true ∧ pyLower r.scheme = r.scheme)) ∧
    (∀ c ∈ r.netloc, printableAscii c ∧ c ≠ '/' ∧ c ≠ '?' ∧ c ≠ '#' ∧
      c ≠ '[' ∧ c ≠ ']') ∧
    (∀ c ∈ r.path, printableAscii c ∧ c ≠ '#' ∧ c ≠ '?') := by
  have hstrip : stripLeft isC0OrSpace u = u := dropWhile_noop (fun c hc => by
    have := (hu c hc).1
    unfold isC0OrSpace
    simp
    omega)
  have hclean : u.filter (fun c => ¬ (c = '\t' ∨ c = '\r' ∨ c = '\n')) = u :=
    List.filter_eq_self.mpr (fun c hc => by
      have := (hu c hc).1
      simp
      refine ⟨?_, ?_, ?_⟩ <;> · rintro rfl; revert this; decide)
  simp only [urlsplit] at h
  rw [hstrip] at h
  rw [hclean] at h
  -- facts about the scheme and the remainder handed to the authority split
  have hsch : ∀ sch rest, splitScheme u = (sch, rest) →
      ((sch = [] ∨ (sch ≠ [] ∧ sch.all isSchemeChar = true ∧
        isAsciiAlpha (sch.headD 'a') = true ∧ pyLower sch = sch)) ∧
       (∀ c ∈ rest, c ∈ u)) := by
    intro sch rest hsr
    rcases splitScheme_cases u with hc | ⟨pre, after, hurl, hc, hp1, hp2, hp3⟩
    · rw [hc] at hsr
      injection hsr with h1 h2
      subst h1
      subst h2
      exact ⟨Or.inl rfl, fun c hc2 => hc2⟩
    · rw [hc] at hsr
      injection hsr with h1 h2
      subst h1
      subst h2
      constructor
      · right
        refine ⟨?_, ?_, ?_, ?_⟩
        · cases pre with
          | nil => exact absurd rfl hp1
          | cons a b => simp [pyLower]
        · rw [List.all_eq_true] at hp2 ⊢
          intro x hx
          simp only [pyLower] at hx
          obtain ⟨x0, hx0, rfl⟩ := List.mem_map.mp hx
          exact isSchemeChar_lower (hp2 x0 hx0)
        · cases pre with
          | nil => exact absurd rfl hp1
          | cons a b =>
              simp only [pyLower, List.map_cons, List.headD]
              exact isAsciiAlpha_lower (by simpa using hp3)
        · apply pyLower_idem
          intro c hcm
          exact isSchemeChar_ascii (List.all_eq_true.mp hp2 c hcm)
      · intro c hc2
        rw [hurl]
        simp [hc2]
  obtain ⟨hschemeF, hrestF⟩ := hsch (splitScheme u).1 (splitScheme u).2 rfl
  have hstep : ∀ (d : Char) (l : Str), ∀ c ∈ (if d ∈ l then takeUntilMem [d] l else l),
      c ∈ l ∧ c ≠ d := by
    intro d l c hm
    by_cases hd : d ∈ l
    · rw [if_pos hd] at hm
      have h2 := mem_takeUntilMem hm
      exact ⟨h2.1, by simpa using h2.2⟩
    · rw [if_neg hd] at hm
      exact ⟨hm, fun he => hd (he ▸ hm)⟩
  split at h
  next e heq => exact absurd h (by simp)
  next netloc rest2 heq =>
    -- establish the facts about netloc and rest2 from the authority branch
    have hnl : (∀ c ∈ netloc, c ∈ u ∧ c ≠ '/' ∧ c ≠ '?' ∧ c ≠ '#' ∧ c ≠ '[' ∧ c ≠ ']') ∧
        (∀ c ∈ rest2, c ∈ u) := by
      unfold splitAuthority at heq
      dsimp only at heq
      split at heq
      next r2 hr2 =>
        split at heq
        · exact absurd heq (by simp)
        next hbr =>
          injection heq with heq2
          injection heq2 with hq1 hq2
          subst hq1
          subst hq2
          constructor
          · intro c hcm
            have h2 := mem_takeUntilMem hcm
            refine ⟨hrestF c (by rw [hr2]; simp [h2.1]), ?_, ?_, ?_, ?_, ?_⟩
            · intro he; exact h2.2 (by simp [he])
            · intro he; exact h2.2 (by simp [he])
            · intro he; exact h2.2 (by simp [he])
            · intro he; subst he; exact hbr (Or.inl hcm)
            · intro he; subst he; exact hbr (Or.inr hcm)
          · intro c hcm
            have h2 := mem_dropFromMem hcm
            exact hrestF c (by rw [hr2]; simp [h2])
      next hne =>
        injection heq with heq2
        injection heq2 with hq1 hq2
        subst hq1
        subst hq2
        exact ⟨by simp, hrestF⟩
    -- now the fragment and query splits inside h
    injection h with h2
    subst h2
    refine ⟨hschemeF, ?_, ?_⟩
    · intro c hcm
      simp only at hcm
      obtain ⟨hcu, d1, d2, d3, d4, d5⟩ := hnl.1 c hcm
      exact ⟨hu c hcu, d1, d2, d3, d4, d5⟩
    · intro c hcm
      simp only [apply_ite (fun p : Str × Str => p.1)] at hcm
      obtain ⟨hmid, hq⟩ := hstep '?' (if '#' ∈ rest2 then takeUntilMem ['#'] rest2 else rest2) c hcm
      obtain ⟨hin, hh⟩ := hstep '#' rest2 c hmid
      exact ⟨hu c (hnl.2 c hin), hh, hq⟩

theorem splitparams_fst_subset (l : Str) : ∀ c ∈ (splitparams l).1, c ∈ l := by
  intro c hc
  unfold splitparams at hc
  by_cases h1 : '/' ∈ l
  · rw [if_pos h1] at hc
    by_cases h2 : ';' ∈ (takeUntilMem ['/'] l.reverse).reverse
    · rw [if_pos h2] at hc
      simp only at hc
      rcases List.mem_append.mp hc with hm | hm
      · exact List.take_subset _ l hm
      · have h3 := (mem_takeUntilMem hm).1
        rw [List.mem_reverse] at h3
        have h4 := (mem_takeUntilMem h3).1
        simpa using h4
    · rw [if_neg h2] at hc
      exact hc
  · rw [if_neg h1] at hc
    by_cases h2 : ';' ∈ l
    · rw [if_pos h2] at hc
      exact (mem_takeUntilMem hc).1
    · rw [if_neg h2] at hc
      exact hc

theorem urlparse_ok_facts {u : Str} {r : ParseResult} (hu : ∀ c ∈ u, printableAscii c)
    (h : urlparse u = .ok r) :
    (r.scheme = [] ∨
      (r.scheme ≠ [] ∧ r.scheme.all isSchemeChar = true ∧
        isAsciiAlpha (r.scheme.headD 'a') = true ∧ pyLower r.scheme = r.scheme)) ∧
    (∀ c ∈ r.netloc, printableAscii c ∧ c ≠ '/' ∧ c ≠ '?' ∧ c ≠ '#' ∧
      c ≠ '[' ∧ c ≠ ']') ∧
    (∀ c ∈ r.path, printableAscii c ∧ c ≠ '#' ∧ c ≠ '?') := by
  unfold urlparse at h
  cases hs : urlsplit u with
  | error e => rw [hs] at h; exact absurd h (by simp)
  | ok sp =>
      rw [hs] at h
      dsimp only at h
      obtain ⟨f1, f2, f3⟩ := urlsplit_ok_facts hu hs
      by_cases hc : sp.scheme ∈ uses_params ∧ ';' ∈ sp.path
      · rw [if_pos hc] at h
        injection h with h2
        subst h2
        refine ⟨f1, f2, ?_⟩
        intro c hcm
        simp only at hcm
        exact f3 c (splitparams_fst_subset sp.path c hcm)
      · rw [if_neg hc] at h
        injection h with h2
        subst h2
        exact ⟨f1, f2, f3⟩

theorem map_fix {f : Char → Char} {l : Str} (h : ∀ c ∈ l, f c = c) : l.map f = l := by
  induction l with
  | nil => rfl
  | cons c r ih =>
      simp only [List.map_cons]
      rw [h c (by simp), ih fun x hx => h x (by simp [hx])]

theorem printable_not_pyWs {c : Char} (h : printableAscii c) : isPyWs c = false :=
  ascii_char_cases h.2 (fun x => 0x20 < x.toNat → isPyWs x = false) (by decide) h.1

theorem dropWhile_cons_false {p : Char → Bool} {x : Char} {xs : Str}
    (h : p x = false) : (x :: xs).dropWhile p = x :: xs := by
  simp [List.dropWhile_cons, h]

theorem dropWhile_head_false {p : Char → Bool} {l : Str} {x : Char} {xs : Str}
    (h : l.dropWhile p = x :: xs) : p x = false := by
  induction l with
  | nil => simp at h
  | cons a t ih =>
      rw [List.dropWhile_cons] at h
      by_cases hp : p a = true
      · rw [if_pos hp] at h; exact ih h
      · rw [if_neg hp] at h
        cases h
        simpa using hp

theorem rstripSlash_head_fact {q : Str} (h : rstripSlash q ≠ []) :
    ∃ x xs, (rstripSlash q).reverse = x :: xs ∧ ((x = '/') = False) := by
  unfold rstripSlash at h ⊢
  rw [List.reverse_reverse]
  cases hx : q.reverse.dropWhile (· = '/') with
  | nil => rw [hx] at h; simp at h
  | cons x xs =>
      refine ⟨x, xs, rfl, ?_⟩
      have := dropWhile_head_false hx
      simpa using this

theorem rstrip_cons_fixed {q : Str} (c : Char) (h : rstripSlash q ≠ []) :
    rstripSlash (c :: rstripSlash q) = c :: rstripSlash q := by
  obtain ⟨x, xs, hrev, hx⟩ := rstripSlash_head_fact h
  have h1 : (c :: rstripSlash q).reverse = x :: (xs ++ [c]) := by
    rw [List.reverse_cons, hrev]; rfl
  show ((c :: rstripSlash q).reverse.dropWhile (· = '/')).reverse = c :: rstripSlash q
  rw [h1, dropWhile_cons_false (by simpa using hx), ← h1, List.reverse_reverse]

theorem splitAuthority_marker {r2 : Str}
    (h : ¬ ('[' ∈ takeUntilMem ['/', '?', '#'] r2 ∨ ']' ∈ takeUntilMem ['/', '?', '#'] r2)) :
    splitAuthority ('/' :: '/' :: r2) =
      .ok (takeUntilMem ['/', '?', '#'] r2, dropFromMem ['/', '?', '#'] r2) := by
  show (if '[' ∈ takeUntilMem ['/', '?', '#'] r2 ∨ ']' ∈ takeUntilMem ['/', '?', '#'] r2 then
      Except.error () else
      Except.ok (takeUntilMem ['/', '?', '#'] r2, dropFromMem ['/', '?', '#'] r2)) =
    Except.ok (takeUntilMem ['/', '?', '#'] r2, dropFromMem ['/', '?', '#'] r2)
  rw [if_neg h]

theorem splitAuthority_no_marker {rest : Str} (h : rest.take 2 ≠ strL "//") :
    splitAuthority rest = .ok ([], rest) := by
  unfold splitAuthority
  split
  · exact absurd rfl h
  · rfl

theorem splitScheme_build {sch rest : Str} (h1 : sch ≠ [])
    (h2 : sch.all isSchemeChar = true) (h3 : isAsciiAlpha (sch.headD 'a') = true)
    (h4 : pyLower sch = sch) :
    splitScheme (sch ++ ':' :: rest) = (sch, rest) := by
  have hnotin : ∀ c ∈ sch, c ∉ [':'] := by
    intro c hc
    simp only [List.mem_singleton]
    rintro rfl
    exact absurd (List.all_eq_true.mp h2 ':' hc) (by decide)
  have htake : takeUntilMem [':'] (sch ++ ':' :: rest) = sch := by
    rw [takeUntilMem_append_of_all_not _ hnotin, takeUntilMem_cons_mem _ (by simp)]
    simp
  have hdrop : dropFromMem [':'] (sch ++ ':' :: rest) = ':' :: rest := by
    rw [dropFromMem_append_of_all_not _ hnotin, dropFromMem_cons_mem _ (by simp)]
  cases sch with
  | nil => exact absurd rfl h1
  | cons c0 pre =>
      simp only [splitScheme, htake, hdrop]
      rw [if_pos]
      · rw [h4]
      · rw [Bool.and_eq_true]
        exact ⟨by simpa using h3, h2⟩

theorem urlsplit_build {sch url2 nlT rest2 : Str}
    (hprint : ∀ c ∈ sch ++ ':' :: url2, printableAscii c)
    (hs1 : sch ≠ []) (h2 : sch.all isSchemeChar = true)
    (h3 : isAsciiAlpha (sch.headD 'a') = true) (h4 : pyLower sch = sch)
    (hauth : splitAuthority url2 = .ok (nlT, rest2))
    (hnohash : '#' ∉ rest2) (hnoq : '?' ∉ rest2) :
    urlsplit (sch ++ ':' :: url2) = .ok ⟨sch, nlT, rest2, [], []⟩ := by
  have hstripL : stripLeft isC0OrSpace (sch ++ ':' :: url2) = sch ++ ':' :: url2 :=
    dropWhile_noop (fun c hc => by
      have := (hprint c hc).1
      unfold isC0OrSpace
      simp
      omega)
  have hfilter : (sch ++ ':' :: url2).filter
      (fun c => ¬ (c = '\t' ∨ c = '\r' ∨ c = '\n')) = sch ++ ':' :: url2 :=
    List.filter_eq_self.mpr (fun c hc => by
      have := (hprint c hc).1
      simp
      refine ⟨?_, ?_, ?_⟩ <;> · rintro rfl; revert this; decide)
  have hss : splitScheme (sch ++ ':' :: url2) = (sch, url2) :=
    splitScheme_build hs1 h2 h3 h4
  simp only [urlsplit]
  rw [hstripL, hfilter, hss]
  dsimp only
  rw [hauth]
  dsimp only
  rw [if_neg hnohash]
  dsimp only
  rw [if_neg hnoq]

theorem urlparse_build {sch url2 nlT rest2 : Str}
    (hprint : ∀ c ∈ sch ++ ':' :: url2, printableAscii c)
    (hs1 : sch ≠ []) (h2 : sch.all isSchemeChar = true)
    (h3 : isAsciiAlpha (sch.headD 'a') = true) (h4 : pyLower sch = sch)
    (hauth : splitAuthority url2 = .ok (nlT, rest2))
    (hnohash : '#' ∉ rest2) (hnoq : '?' ∉ rest2) (hnosemi : ';' ∉ rest2) :
    urlparse (sch ++ ':' :: url2) = .ok ⟨sch, nlT, rest2, [], [], []⟩ := by
  unfold urlparse
  rw [urlsplit_build hprint hs1 h2 h3 h4 hauth hnohash hnoq]
  dsimp only
  rw [if_neg (fun hc => hnosemi hc.2)]

theorem urlunsplit_normalize_fixed {sch nl pth : Str}
    (hs1 : sch ≠ []) (h2 : sch.all isSchemeChar = true)
    (h3 : isAsciiAlpha (sch.headD 'a') = true) (h4 : pyLower sch = sch)
    (hnl : ∀ c ∈ nl, printableAscii c ∧ c ≠ '/' ∧ c ≠ '?' ∧ c ≠ '#' ∧ c ≠ '[' ∧ c ≠ ']')
    (hnlfix : pyLower nl = nl)
    (hnw : (strL "www.").isPrefixOf nl = false)
    (hpth : ∀ c ∈ pth, printableAscii c ∧ c ≠ '#' ∧ c ≠ '?' ∧ c ≠ ';')
    (hrs : rstripSlash pth = pth)
    (hcase : nl ≠ [] ∨ pth.take 2 ≠ strL "//") :
    normalize_url (urlunsplit sch nl pth [] []) = urlunsplit sch nl pth [] [] := by
  have hnn : ¬ (([] : Str) ≠ []) := fun h => h rfl
  have hschp : ∀ c ∈ sch, printableAscii c :=
    fun c hc => isSchemeChar_printable (List.all_eq_true.mp h2 c hc)
  have ho : urlunsplit sch nl pth [] [] =
      sch ++ ':' :: (if nl ≠ [] ∨ (sch ≠ [] ∧ sch ∈ uses_netloc ∧ pth.take 2 ≠ strL "//")
        then strL "//" ++ nl ++ (if pth ≠ [] ∧ pth.take 1 ≠ strL "/" then '/' :: pth else pth)
        else pth) := by
    simp only [urlunsplit]
    rw [if_neg hnn, if_neg hnn, if_pos hs1]
  by_cases hc : nl ≠ [] ∨ (sch ≠ [] ∧ sch ∈ uses_netloc ∧ pth.take 2 ≠ strL "//")
  · -- the authority marker is emitted
    rw [if_pos hc] at ho
    obtain ⟨u1, hu1⟩ : ∃ u1,
        (if pth ≠ [] ∧ pth.take 1 ≠ strL "/" then '/' :: pth else pth) = u1 := ⟨_, rfl⟩
    rw [hu1] at ho
    have hu1shape : u1 = [] ∨ ∃ t, u1 = '/' :: t := by
      rw [← hu1]
      by_cases hp1 : pth ≠ [] ∧ pth.take 1 ≠ strL "/"
      · rw [if_pos hp1]; exact Or.inr ⟨pth, rfl⟩
      · rw [if_neg hp1]
        by_cases hpe : pth = []
        · exact Or.inl hpe
        · right
          cases pth with
          | nil => exact absurd rfl hpe
          | cons p0 pr =>
              refine ⟨pr, ?_⟩
              have hp2 : (p0 :: pr).take 1 = strL "/" := by
                by_contra hne
                exact hp1 ⟨hpe, hne⟩
              have : p0 = '/' := by
                have := hp2
                simp only [List.take_succ_cons, List.take_zero] at this
                injection this
              rw [this]
    have hu1mem : ∀ c ∈ u1, c = '/' ∨ c ∈ pth := by
      intro c hcm
      rw [← hu1] at hcm
      by_cases hp1 : pth ≠ [] ∧ pth.take 1 ≠ strL "/"
      · rw [if_pos hp1] at hcm
        rcases List.mem_cons.mp hcm with rfl | hm
        · exact Or.inl rfl
        · exact Or.inr hm
      · rw [if_neg hp1] at hcm
        exact Or.inr hcm
    have hu1rs : rstripSlash u1 = u1 := by
      rw [← hu1]
      by_cases hp1 : pth ≠ [] ∧ pth.take 1 ≠ strL "/"
      · rw [if_pos hp1]
        have := rstrip_cons_fixed '/' (q := pth) (by rw [hrs]; exact hp1.1)
        rwa [hrs] at this
      · rw [if_neg hp1]
        exact hrs
    have hnlnot : ∀ c ∈ nl, c ∉ (['/', '?', '#'] : List Char) := by
      intro c hc2
      obtain ⟨_, d1, d2, d3, _, _⟩ := hnl c hc2
      simp [d1, d2, d3]
    have htakeA : takeUntilMem ['/', '?', '#'] (nl ++ u1) = nl := by
      rw [takeUntilMem_append_of_all_not _ hnlnot]
      rcases hu1shape with rfl | ⟨t, rfl⟩
      · simp [takeUntilMem]
      · rw [takeUntilMem_cons_mem _ (by simp)]
        simp
    have hdropA : dropFromMem ['/', '?', '#'] (nl ++ u1) = u1 := by
      rw [dropFromMem_append_of_all_not _ hnlnot]
      rcases hu1shape with rfl | ⟨t, rfl⟩
      · rfl
      · rw [dropFromMem_cons_mem _ (by simp)]
    have hauth : splitAuthority ('/' :: '/' :: (nl ++ u1)) = .ok (nl, u1) := by
      rw [splitAuthority_marker ?hbr, htakeA, hdropA]
      case hbr =>
        rw [htakeA]
        rintro (hm | hm)
        · exact (hnl _ hm).2.2.2.2.1 rfl
        · exact (hnl _ hm).2.2.2.2.2 rfl
    have ho2 : urlunsplit sch nl pth [] [] = sch ++ ':' :: ('/' :: '/' :: (nl ++ u1)) := by
      rw [ho]
      rfl
    have hprint : ∀ c ∈ sch ++ ':' :: ('/' :: '/' :: (nl ++ u1)), printableAscii c := by
      intro c hcm
      rcases List.mem_append.mp hcm with hm | hm
      · exact hschp c hm
      rcases List.mem_cons.mp hm with rfl | hm
      · decide
      rcases List.mem_cons.mp hm with rfl | hm
      · decide
      rcases List.mem_cons.mp hm with rfl | hm
      · decide
      rcases List.mem_append.mp hm with hm2 | hm2
      · exact (hnl c hm2).1
      · rcases hu1mem c hm2 with rfl | hm3
        · decide
        · exact (hpth c hm3).1
    have hnohash : '#' ∉ u1 := by
      intro hm
      rcases hu1mem _ hm with h | h
      · exact absurd h (by decide)
      · exact (hpth _ h).2.1 rfl
    have hnoq : '?' ∉ u1 := by
      intro hm
      rcases hu1mem _ hm with h | h
      · exact absurd h (by decide)
      · exact (hpth _ h).2.2.1 rfl
    have hnosemi : ';' ∉ u1 := by
      intro hm
      rcases hu1mem _ hm with h | h
      · exact absurd h (by decide)
      · exact (hpth _ h).2.2.2 rfl
    have hparse : urlparse (sch ++ ':' :: ('/' :: '/' :: (nl ++ u1))) =
        .ok ⟨sch, nl, u1, [], [], []⟩ :=
      urlparse_build hprint hs1 h2 h3 h4 hauth hnohash hnoq hnosemi
    rw [ho2]
    simp only [normalize_url]
    rw [stripBoth_noop (fun c hcm => printable_not_pyWs (hprint c hcm)), hparse]
    dsimp only
    rw [if_neg hs1, hnlfix, if_neg (by simp [hnw]), hu1rs]
    simp only [urlunparse]
    rw [if_neg hnn]
    simp only [urlunsplit]
    rw [if_neg hnn, if_neg hnn, if_pos hs1]
    have hcond2 : u1 ≠ [] ∨ (sch ≠ [] ∧ sch ∈ uses_netloc ∧ u1.take 2 ≠ strL "//") → True := fun _ => trivial
    have hcond2' : nl ≠ [] ∨ (sch ≠ [] ∧ sch ∈ uses_netloc ∧ u1.take 2 ≠ strL "//") := by
      by_cases hnle : nl = []
      · right
        have hB : sch ∈ uses_netloc ∧ pth.take 2 ≠ strL "//" := by
          rcases hc with h | h
          · exact absurd hnle h
          · exact ⟨h.2.1, h.2.2⟩
        refine ⟨hs1, hB.1, ?_⟩
        rw [← hu1]
        by_cases hp1 : pth ≠ [] ∧ pth.take 1 ≠ strL "/"
        · rw [if_pos hp1]
          cases pth with
          | nil => exact absurd rfl hp1.1
          | cons p0 pr =>
              intro he
              simp only [List.take_succ_cons, List.take_zero] at he
              injection he with he1 he2
              injection he2 with he3 he4
              exact hp1.2 (by rw [he3]; rfl)
        · rw [if_neg hp1]
          exact hB.2
      · exact Or.inl hnle
    rw [if_pos hcond2']
    have hinner : ¬ (u1 ≠ [] ∧ u1.take 1 ≠ strL "/") := by
      rintro ⟨hne, htk⟩
      rcases hu1shape with rfl | ⟨t, rfl⟩
      · exact hne rfl
      · exact htk rfl
    rw [if_neg hinner]
    rfl
  · -- no authority marker: scheme not in uses_netloc
    rw [if_neg hc] at ho
    have hnle : nl = [] := by
      by_contra h
      exact hc (Or.inl h)
    have htk2 : pth.take 2 ≠ strL "//" := by
      rcases hcase with h | h
      · exact absurd hnle h
      · exact h
    have hnotnet : sch ∉ uses_netloc := fun hin => hc (Or.inr ⟨hs1, hin, htk2⟩)
    have hauth : splitAuthority pth = .ok ([], pth) := splitAuthority_no_marker htk2
    have hprint : ∀ c ∈ sch ++ ':' :: pth, printableAscii c := by
      intro c hcm
      rcases List.mem_append.mp hcm with hm | hm
      · exact hschp c hm
      rcases List.mem_cons.mp hm with rfl | hm
      · decide
      · exact (hpth c hm).1
    have hparse : urlparse (sch ++ ':' :: pth) = .ok ⟨sch, [], pth, [], [], []⟩ :=
      urlparse_build hprint hs1 h2 h3 h4 hauth
        (fun hm => (hpth _ hm).2.1 rfl) (fun hm => (hpth _ hm).2.2.1 rfl)
        (fun hm => (hpth _ hm).2.2.2 rfl)
    rw [ho]
    simp only [normalize_url]
    rw [stripBoth_noop (fun c hcm => printable_not_pyWs (hprint c hcm)), hparse]
    dsimp only
    rw [if_neg hs1]
    rw [show pyLower [] = ([] : Str) from rfl]
    rw [if_neg (by decide)]
    rw [hrs]
    simp only [urlunparse]
    rw [if_neg hnn]
    simp only [urlunsplit]
    rw [if_neg hnn, if_neg hnn, if_pos hs1]
    rw [if_neg ?hcF]
    case hcF =>
      rintro (h | h)
      · exact h rfl
      · exact hnotnet h.2.1

/-- C3: amended idempotence of the URL normalizer. On printable-ASCII inputs
that parse successfully, whose host does not retain a `www.` prefix after the
single strip, whose path carries no parameter separator, and which avoid the
empty-netloc `//`-path corner, a second normalization is the identity. -/
theorem normalize_url_idempotent {u : Str} {r : ParseResult}
    (hu : ∀ c ∈ u, printableAscii c)
    (hp : urlparse u = .ok r)
    (hwww : (strL "www.").isPrefixOf
        (if (strL "www.").isPrefixOf (pyLower r.netloc) then (pyLower r.netloc).drop 4
         else pyLower r.netloc) = false)
    (hsemi : ';' ∉ r.path)
    (hslash : (if (strL "www.").isPrefixOf (pyLower r.netloc) then (pyLower r.netloc).drop 4
         else pyLower r.netloc) ≠ [] ∨ (rstripSlash r.path).take 2 ≠ strL "//") :
    normalize_url (normalize_url u) = normalize_url u := by
  have hnn : ¬ (([] : Str) ≠ []) := fun h => h rfl
  obtain ⟨f1, f2, f3⟩ := urlparse_ok_facts hu hp
  obtain ⟨sch, hsch⟩ : ∃ s, (if r.scheme = [] then strL "https" else r.scheme) = s := ⟨_, rfl⟩
  obtain ⟨nl, hnl⟩ : ∃ n, (if (strL "www.").isPrefixOf (pyLower r.netloc) then
      (pyLower r.netloc).drop 4 else pyLower r.netloc) = n := ⟨_, rfl⟩
  obtain ⟨pth, hpth⟩ : ∃ q, rstripSlash r.path = q := ⟨_, rfl⟩
  rw [hnl] at hwww hslash
  rw [hpth] at hslash
  have hfirst : normalize_url u = urlunsplit sch nl pth [] [] := by
    simp only [normalize_url]
    rw [stripBoth_noop (fun c hc => printable_not_pyWs (hu c hc)), hp]
    dsimp only
    rw [hsch, hnl, hpth]
    simp only [urlunparse]
    rw [if_neg hnn]
  have hs1 : sch ≠ [] := by
    rw [← hsch]
    by_cases he : r.scheme = []
    · rw [if_pos he]; decide
    · rw [if_neg he]; exact he
  have hschemeF : sch.all isSchemeChar = true ∧ isAsciiAlpha (sch.headD 'a') = true ∧
      pyLower sch = sch := by
    rw [← hsch]
    by_cases he : r.scheme = []
    · rw [if_pos he]
      refine ⟨by decide, by decide, by decide⟩
    · rw [if_neg he]
      rcases f1 with h | ⟨_, ha, hb, hd⟩
      · exact absurd h he
      · exact ⟨ha, hb, hd⟩
  have hmemnl : ∀ c ∈ nl, ∃ c0 ∈ r.netloc, c = pyLowerChar c0 := by
    intro c hc
    have hc2 : c ∈ pyLower r.netloc := by
      rw [← hnl] at hc
      by_cases hw : (strL "www.").isPrefixOf (pyLower r.netloc) = true
      · rw [if_pos hw] at hc
        exact List.drop_subset _ _ hc
      · rw [if_neg hw] at hc
        exact hc
    simp only [pyLower] at hc2
    obtain ⟨c0, hc0, he⟩ := List.mem_map.mp hc2
    exact ⟨c0, hc0, he.symm⟩
  have hnlF : ∀ c ∈ nl, printableAscii c ∧ c ≠ '/' ∧ c ≠ '?' ∧ c ≠ '#' ∧
      c ≠ '[' ∧ c ≠ ']' := by
    intro c hc
    obtain ⟨c0, hc0, rfl⟩ := hmemnl c hc
    obtain ⟨hpr, d1, d2, d3, d4, d5⟩ := f2 c0 hc0
    refine ⟨pyLowerChar_printable hpr, ?_, ?_, ?_, ?_, ?_⟩
    · exact pyLowerChar_ne hpr (Or.inl (by decide)) d1
    · exact pyLowerChar_ne hpr (Or.inl (by decide)) d2
    · exact pyLowerChar_ne hpr (Or.inl (by decide)) d3
    · exact pyLowerChar_ne hpr (Or.inl (by decide)) d4
    · exact pyLowerChar_ne hpr (Or.inl (by decide)) d5
  have hnlfixF : pyLower nl = nl := by
    simp only [pyLower]
    apply map_fix
    intro c hc
    obtain ⟨c0, hc0, rfl⟩ := hmemnl c hc
    exact pyLowerChar_idem (f2 c0 hc0).1.2
  have hpthF : ∀ c ∈ pth, printableAscii c ∧ c ≠ '#' ∧ c ≠ '?' ∧ c ≠ ';' := by
    intro c hc
    rw [← hpth] at hc
    have hc2 := mem_rstripSlash hc
    obtain ⟨hpr, d1, d2⟩ := f3 c hc2
    refine ⟨hpr, d1, d2, ?_⟩
    rintro rfl
    exact hsemi hc2
  have hrsF : rstripSlash pth = pth := by
    rw [← hpth]
    exact rstripSlash_idem r.path
  rw [hfirst]
  exact urlunsplit_normalize_fixed hs1 hschemeF.1 hschemeF.2.1 hschemeF.2.2
    hnlF hnlfixF hwww hpthF hrsF hslash

theorem normalize_url_not_fully_idempotent :
    normalize_url (normalize_url (strL "https://www.www.example.com/a")) ≠
      normalize_url (strL "https://www.www.example.com/a") ∧
    normalize_url (strL "http://WWW.Example.com/a/b/?x=1#y") ≠
      normalize_url (strL "https://example.com/a/b") := by
  decide

theorem normalize_url_idempotent_witness :
    (∀ c ∈ strL "https://www.Example.com/a/", printableAscii c) ∧
    urlparse (strL "https://www.Example.com/a/") =
      .ok ⟨strL "https", strL "www.Example.com", strL "/a/", [], [], []⟩ ∧
    normalize_url (normalize_url (strL "https://www.Example.com/a/")) =
      normalize_url (strL "https://www.Example.com/a/") :=
  ⟨by decide, rfl,
    normalize_url_idempotent (r := ⟨strL "https", strL "www.Example.com", strL "/a/", [], [], []⟩)
      (by decide) rfl (by decide) (by decide) (by decide)⟩

/-! ### C2: deduplication in save_and_check (src/src/main.py lines 546-563).

The DataFrame is built with columns=COLUMN_ORDER, so 'source', 'external_id'
and 'url' columns always exist and `keys` is always
[['source','external_id'], ['url']]; the dedup key of a row is the tuple of
BOTH sub-keys.  The url column is mapped through normalize_url first; the
try/except abandons the whole column mapping when any url value is missing
(AttributeError on float nan). -/

structure SrcRec where
  source : Option Str
  external_id : Option Str
  url : Option Str
deriving DecidableEq

/-- Lines 555-558: dedup_key is the tuple of both sub-keys — the
(source, external_id) pair AND the (normalized) url. -/
def dedupKey (r : SrcRec) : (Option Str × Option Str) × Option Str :=
  ((r.source, r.external_id), r.url)

/-- Lines 552-562: the seen-set loop, first occurrence of a key wins. -/
def dedupGo : List ((Option Str × Option Str) × Option Str) → List SrcRec → List SrcRec
  | _, [] => []
  | seen, r :: rest =>
      if dedupKey r ∈ seen then dedupGo seen rest
      else r :: dedupGo (dedupKey r :: seen) rest

/-- Lines 541-545: df['url'].map(normalize_url) inside try/except — the
column assignment happens only when every url is present (a missing value is
a float nan whose .strip() raises, abandoning the mapping). -/
def normalizeUrls (rs : List SrcRec) : List SrcRec :=
  if rs.all fun r => !r.url.isNone then
    rs.map fun r => ⟨r.source, r.external_id, r.url.map normalize_url⟩
  else rs

/-- Lines 541-563 of save_and_check: url normalization then first-wins
deduplication on the composite key. -/
def save_and_check_dedup (rs : List SrcRec) : List SrcRec :=
  dedupGo [] (normalizeUrls rs)

/-- Spec-side key (refinement comparison only): the ordered preference
(source, external_id) if both present, ELSE the normalized url; encoded as a
disjoint pair (the first component is some exactly in the id case). -/
def specDedupKey (r : SrcRec) : Option (Str × Str) × Option Str :=
  match r.source, r.external_id with
  | some s, some e => (some (s, e), none)
  | _, _ => (none, r.url)

/-- Spec-side dedup loop over specDedupKey. -/
def specDedupGo : List (Option (Str × Str) × Option Str) → List SrcRec → List SrcRec
  | _, [] => []
  | seen, r :: rest =>
      if specDedupKey r ∈ seen then specDedupGo seen rest
      else r :: specDedupGo (specDedupKey r :: seen) rest

/-- Spec-side dedup of the normalized records. -/
def spec_dedup (rs : List SrcRec) : List SrcRec :=
  specDedupGo [] (normalizeUrls rs)

theorem dedupGo_sublist (seen : List ((Option Str × Option Str) × Option Str))
    (l : List SrcRec) : (dedupGo seen l).Sublist l := by
  induction l generalizing seen with
  | nil => simp [dedupGo]
  | cons r rest ih =>
      simp only [dedupGo]
      by_cases h : dedupKey r ∈ seen
      · rw [if_pos h]; exact (ih seen).cons r
      · rw [if_neg h]; exact (ih _).cons₂ r

theorem dedupGo_keys_not_seen (seen : List ((Option Str × Option Str) × Option Str))
    (l : List SrcRec) : ∀ k ∈ (dedupGo seen l).map dedupKey, k ∉ seen := by
  induction l generalizing seen with
  | nil => simp [dedupGo]
  | cons r rest ih =>
      simp only [dedupGo]
      by_cases h : dedupKey r ∈ seen
      · rw [if_pos h]; exact ih seen
      · rw [if_neg h]
        intro k hk
        simp only [List.map_cons, List.mem_cons] at hk
        rcases hk with rfl | hk
        · exact h
        · intro hs
          exact ih (dedupKey r :: seen) k hk (List.mem_cons_of_mem _ hs)

theorem dedupGo_nodup (seen : List ((Option Str × Option Str) × Option Str))
    (l : List SrcRec) : ((dedupGo seen l).map dedupKey).Nodup := by
  induction l generalizing seen with
  | nil => simp [dedupGo]
  | cons r rest ih =>
      simp only [dedupGo]
      by_cases h : dedupKey r ∈ seen
      · rw [if_pos h]; exact ih seen
      · rw [if_neg h]
        simp only [List.map_cons, List.nodup_cons]
        refine ⟨?_, ih _⟩
        intro hk
        exact dedupGo_keys_not_seen _ _ _ hk (by simp)

theorem dedupGo_covers (seen : List ((Option Str × Option Str) × Option Str))
    (l : List SrcRec) :
    ∀ r ∈ l, dedupKey r ∈ seen ∨ dedupKey r ∈ (dedupGo seen l).map dedupKey := by
  induction l generalizing seen with
  | nil => simp
  | cons r rest ih =>
      intro s hs
      simp only [dedupGo]
      rcases List.mem_cons.mp hs with rfl | hs2
      · by_cases h : dedupKey s ∈ seen
        · exact Or.inl h
        · rw [if_neg h]
          right
          simp
      · by_cases h : dedupKey r ∈ seen
        · rw [if_pos h]
          exact ih seen s hs2
        · rw [if_neg h]
          rcases ih (dedupKey r :: seen) s hs2 with hx | hx
          · rcases List.mem_cons.mp hx with he | hx2
            · right
              rw [he]
              simp
            · exact Or.inl hx2
          · right
            simp [hx]

/-- C2 counterexample: two records sharing (source, external_id) but with
different urls are BOTH kept by the code (the composite key differs), while
the claimed either-criterion key keeps only the first. -/
theorem dedup_composite_key_counterexample :
    (save_and_check_dedup
      [⟨some (strL "A"), some (strL "1"), some (strL "https://example.com/x1")⟩,
       ⟨some (strL "A"), some (strL "1"), some (strL "https://example.com/x2")⟩]).length = 2 ∧
    (spec_dedup
      [⟨some (strL "A"), some (strL "1"), some (strL "https://example.com/x1")⟩,
       ⟨some (strL "A"), some (strL "1"), some (strL "https://example.com/x2")⟩]).length = 1 := by
  decide

/-- C2: deduplication of the normalized record list is first-wins on the
COMPOSITE key ((source, external_id), url): the survivors are a subsequence
of the normalized input (order preserved), their composite keys are
pairwise distinct, every input key is represented, and two same-source
records without external ids but with equal normalized urls collapse to the
first. -/
theorem save_and_check_dedup_composite (rs : List SrcRec) :
    (save_and_check_dedup rs).Sublist (normalizeUrls rs) ∧
    ((save_and_check_dedup rs).map dedupKey).Nodup ∧
    (∀ r ∈ normalizeUrls rs, dedupKey r ∈ (save_and_check_dedup rs).map dedupKey) ∧
    save_and_check_dedup
      [⟨some (strL "A"), none, some (strL "https://example.com/x")⟩,
       ⟨some (strL "A"), none, some (strL "https://example.com/x")⟩] =
      [⟨some (strL "A"), none, some (strL "https://example.com/x")⟩] := by
  refine ⟨dedupGo_sublist [] _, dedupGo_nodup [] _, ?_, by decide⟩
  intro r hr
  rcases dedupGo_covers [] _ r hr with h | h
  · exact absurd h (by simp)
  · exact h

/-! ### C8: shared control structure of scrape_cian (src/src/main.py lines
179-340) and scrape_avito (lines 343-503).

The network, selectors and parsing are abstracted into an oracle: a search
page fetch yields blocked (403/429), failed (raise_for_status or transport
error, reaching the outer except) or an extracted link list; a detail fetch
(per link and attempt) yields blocked, an HTTP error, or a body whose
processing appends at most one record (body exceptions and the area filter
both append nothing and are observationally `ok none`).  Each scraper's
control skeleton is transcribed separately from its own source lines; the
jitter of random.random() is a ℚ-valued oracle.  Outputs record the
produced records, the search pages actually fetched, and the backoff sleeps
in order. -/

def ITEM_RETRIES : Nat := 3

inductive PageResult
  | blocked
  | failed
  | ok (links : List Nat)

inductive ItemResult
  | blocked
  | httpError
  | ok (keep : Option Nat)

structure ScrapeOracle where
  page : Nat → PageResult
  item : Nat → Nat → ItemResult
  jitter : Nat → Nat → ℚ

structure ScrapeOut where
  records : List Nat
  visited : List Nat
  backoffs : List ℚ
deriving DecidableEq

/-- Python dict.fromkeys: first-occurrence dedup preserving order (line 235
and line 401). -/
def dedupLinks : List Nat → List Nat → List Nat
  | _, [] => []
  | seen, l :: rest => if l ∈ seen then dedupLinks seen rest else l :: dedupLinks (l :: seen) rest

/-- Cian retry loop, lines 249-261: for attempt in range(1, ITEM_RETRIES+1),
403/429 and HTTP errors both sleep min(2**attempt, 8) + random.random() and
retry; a success breaks with the response. -/
def cianItemAttempts (fetch : Nat → ItemResult) (jit : Nat → ℚ) :
    List Nat → Option (Option Nat) × List ℚ
  | [] => (none, [])
  | a :: rest =>
      match fetch a with
      | .ok keep => (some keep, [])
      | .blocked =>
          let r := cianItemAttempts fetch jit rest
          (r.1, (min ((2 : ℚ) ^ a) 8 + jit a) :: r.2)
      | .httpError =>
          let r := cianItemAttempts fetch jit rest
          (r.1, (min ((2 : ℚ) ^ a) 8 + jit a) :: r.2)

/-- Cian per-page link loop, lines 245-337: `for link in links[:40]`; a link
with no successful response is skipped (line 262), a processed body appends
at most one record, body exceptions append nothing. -/
def cianProcessLinks (item : Nat → Nat → ItemResult) (jit : Nat → Nat → ℚ) :
    List Nat → List Nat × List ℚ
  | [] => ([], [])
  | l :: rest =>
      let a := cianItemAttempts (item l) (jit l) (List.range' 1 ITEM_RETRIES)
      let r := cianProcessLinks item jit rest
      match a.1 with
      | none => (r.1, a.2 ++ r.2)
      | some none => (r.1, a.2 ++ r.2)
      | some (some rec) => (rec :: r.1, a.2 ++ r.2)

/-- Cian pagination, lines 190-243 and 338-339: `for p in range(1, pages+1)`
with `empty_pages`; a 403/429 search page breaks, an HTTP/transport error
reaches the outer except and breaks, an empty link list increments the
counter and stops at 3, any productive page resets it and processes the
first 40 deduplicated links. -/
def cianPageLoop (o : ScrapeOracle) : Nat → Nat → Nat → ScrapeOut
  | _, 0, _ => ⟨[], [], []⟩
  | p, rem + 1, empty =>
      match o.page p with
      | .blocked => ⟨[], [p], []⟩
      | .failed => ⟨[], [p], []⟩
      | .ok links =>
          let links2 := dedupLinks [] links
          if links2.isEmpty then
            if 3 ≤ empty + 1 then ⟨[], [p], []⟩
            else
              let r := cianPageLoop o (p + 1) rem (empty + 1)
              ⟨r.records, p :: r.visited, r.backoffs⟩
          else
            let pr := cianProcessLinks o.item o.jitter (links2.take 40)
            let r := cianPageLoop o (p + 1) rem 0
            ⟨pr.1 ++ r.records, p :: r.visited, pr.2 ++ r.backoffs⟩

/-- scrape_cian control skeleton over the oracle. -/
def scrape_cian_model (o : ScrapeOracle) (pages : Nat) : ScrapeOut :=
  cianPageLoop o 1 pages 0

/-- Avito retry loop, lines 415-427: textually identical control to the Cian
one. -/
def avitoItemAttempts (fetch : Nat → ItemResult) (jit : Nat → ℚ) :
    List Nat → Option (Option Nat) × List ℚ
  | [] => (none, [])
  | a :: rest =>
      match fetch a with
      | .ok keep => (some keep, [])
      | .blocked =>
          let r := avitoItemAttempts fetch jit rest
          (r.1, (min ((2 : ℚ) ^ a) 8 + jit a) :: r.2)
      | .httpError =>
          let r := avitoItemAttempts fetch jit rest
          (r.1, (min ((2 : ℚ) ^ a) 8 + jit a) :: r.2)

/-- Avito per-page link loop, lines 411-500: `for link in links[:40]` with
the same skip/append behavior. -/
def avitoProcessLinks (item : Nat → Nat → ItemResult) (jit : Nat → Nat → ℚ) :
    List Nat → List Nat × List ℚ
  | [] => ([], [])
  | l :: rest =>
      let a := avitoItemAttempts (item l) (jit l) (List.range' 1 ITEM_RETRIES)
      let r := avitoProcessLinks item jit rest
      match a.1 with
      | none => (r.1, a.2 ++ r.2)
      | some none => (r.1, a.2 ++ r.2)
      | some (some rec) => (rec :: r.1, a.2 ++ r.2)

/-- Avito pagination, lines 354-409 and 501-502: same structure as Cian. -/
def avitoPageLoop (o : ScrapeOracle) : Nat → Nat → Nat → ScrapeOut
  | _, 0, _ => ⟨[], [], []⟩
  | p, rem + 1, empty =>
      match o.page p with
      | .blocked => ⟨[], [p], []⟩
      | .failed => ⟨[], [p], []⟩
      | .ok links =>
          let links2 := dedupLinks [] links
          if links2.isEmpty then
            if 3 ≤ empty + 1 then ⟨[], [p], []⟩
            else
              let r := avitoPageLoop o (p + 1) rem (empty + 1)
              ⟨r.records, p :: r.visited, r.backoffs⟩
          else
            let pr := avitoProcessLinks o.item o.jitter (links2.take 40)
            let r := avitoPageLoop o (p + 1) rem 0
            ⟨pr.1 ++ r.records, p :: r.visited, pr.2 ++ r.backoffs⟩

/-- scrape_avito control skeleton over the oracle. -/
def scrape_avito_model (o : ScrapeOracle) (pages : Nat) : ScrapeOut :=
  avitoPageLoop o 1 pages 0

theorem itemAttempts_eq (fetch : Nat → ItemResult) (jit : Nat → ℚ) (l : List Nat) :
    cianItemAttempts fetch jit l = avitoItemAttempts fetch jit l := by
  induction l with
  | nil => rfl
  | cons a rest ih =>
      simp only [cianItemAttempts, avitoItemAttempts]
      cases fetch a <;> simp [ih]

theorem processLinks_eq (item : Nat → Nat → ItemResult) (jit : Nat → Nat → ℚ)
    (l : List Nat) : cianProcessLinks item jit l = avitoProcessLinks item jit l := by
  induction l with
  | nil => rfl
  | cons x rest ih =>
      simp only [cianProcessLinks, avitoProcessLinks, itemAttempts_eq, ih]

theorem pageLoop_eq (o : ScrapeOracle) (rem : Nat) : ∀ p empty,
    cianPageLoop o p rem empty = avitoPageLoop o p rem empty := by
  induction rem with
  | zero => intro p empty; rfl
  | succ n ih =>
      intro p empty
      simp only [cianPageLoop, avitoPageLoop]
      cases o.page p with
      | blocked => rfl
      | failed => rfl
      | ok links =>
          simp only [processLinks_eq, ih]

/-- Oracle for the witness scenarios: a link whose every detail fetch is
blocked. -/
def alwaysBlocked : Nat → ItemResult := fun _ => ItemResult.blocked

/-- Zero jitter for the witness scenarios. -/
def zeroJit : Nat → ℚ := fun _ => 0

/-- Oracle: every search page yields 50 distinct links, every detail fetch
succeeds with a record. -/
def capOracle : ScrapeOracle :=
  ⟨fun _ => .ok (List.range 50), fun l _ => .ok (some l), fun _ _ => 0⟩

/-- Oracle: pages 1, 2, 4, 5, 6, ... are empty, page 3 yields one link whose
processing produces no record. -/
def resetOracle : ScrapeOracle :=
  ⟨fun p => if p = 3 then .ok [7] else .ok [], fun _ _ => .ok none, fun _ _ => 0⟩

/-- Oracle: page 2 of the search responds 403/429; other pages yield a
link. -/
def blockedOracle : ScrapeOracle :=
  ⟨fun p => if p = 2 then .blocked else .ok [5], fun _ _ => .ok none, fun _ _ => 0⟩

/-- C8: the two scrapers share the control parameters exactly.  The two
transcribed skeletons are equal as functions of the oracle; a link whose
fetches are all 403/429 is retried ITEM_RETRIES = 3 times, backing off
min(2^attempt, 8) + jitter each time, and yields no record; at most the
first 40 deduplicated links of a page are processed (50 offered, 40
records); three consecutive empty pages stop pagination with the counter
reset by a productive page (pages 1-6 visited, page 7 never fetched); and a
403/429 on a search page aborts the run at that page. -/
theorem scraper_control_parameters :
    (∀ (o : ScrapeOracle) (pages : Nat), scrape_cian_model o pages = scrape_avito_model o pages) ∧
    (∀ (fetch : Nat → ItemResult) (jit : Nat → ℚ), (∀ a, fetch a = ItemResult.blocked) →
      cianItemAttempts fetch jit (List.range' 1 ITEM_RETRIES) =
        (none, [min ((2 : ℚ) ^ 1) 8 + jit 1, min ((2 : ℚ) ^ 2) 8 + jit 2,
                min ((2 : ℚ) ^ 3) 8 + jit 3])) ∧
    (scrape_cian_model capOracle 1).records.length = 40 ∧
    (scrape_cian_model resetOracle 10).visited = [1, 2, 3, 4, 5, 6] ∧
    (scrape_cian_model blockedOracle 10).visited = [1, 2] := by
  refine ⟨fun o pages => pageLoop_eq o pages 1 0, ?_, by decide, by decide, by decide⟩
  intro fetch jit h
  simp [ITEM_RETRIES, List.range', cianItemAttempts, h]

theorem scraper_control_parameters_witness :
    scrape_cian_model blockedOracle 10 = scrape_avito_model blockedOracle 10 ∧
    (∀ a, alwaysBlocked a = ItemResult.blocked) ∧
    cianItemAttempts alwaysBlocked zeroJit (List.range' 1 ITEM_RETRIES) =
      (none, [min ((2 : ℚ) ^ 1) 8 + zeroJit 1, min ((2 : ℚ) ^ 2) 8 + zeroJit 2,
              min ((2 : ℚ) ^ 3) 8 + zeroJit 3]) :=
  ⟨scraper_control_parameters.1 blockedOracle 10, fun _ => rfl,
    scraper_control_parameters.2.1 alwaysBlocked zeroJit (fun _ => rfl)⟩
